import Mathlib

/-!
Shallow embedding of the Upload Processing Queue of `src/utils/uploadQueue.ts`.

The TypeScript class `UploadQueue` keeps three pieces of mutable state:
`pendingUploads : Map<string, PendingUpload>` (a JS `Map`, which preserves
insertion order and keeps an existing key at its old position on `set`),
`processingUploads : Set<string>` and `callbacks : Map<string, cb>`.

JavaScript is single threaded: each synchronous segment of code runs
atomically, and the `await`s inside `processUpload` are the only suspension
points.  We model the system as a labelled transition system whose atomic
steps are exactly those synchronous segments:

* `Event.add` – a call to `addUpload` (the fresh id is modelled by a
  counter `nextId`; the real code draws ids from `Date.now()` plus a random
  suffix, whose only relevant property is freshness; the thumbnail handle
  created by `URL.createObjectURL` is likewise identified with the job id,
  a faithful 1:1 abstraction).  `addUpload` runs `processQueue`
  synchronously, and an admission runs the synchronous prefix of
  `processUpload` (up to its first `await`), which we model by adding the
  id to the `inflight` list of outstanding extraction calls.
* `Event.complete id outcome` – the resolution of an outstanding call: the
  continuation of `processUpload` after its awaits.  `outcome` is
  `Except.ok addresses` for a successful extraction and
  `Except.error msg` for any failure (a file-read failure rejects with
  message "Failed to read file"; a webhook failure produces its own
  message; the code maps both through the same `catch` block, so a single
  `Except.error msg` event covers all failure modes).  The segment between
  the two awaits of `processUpload` touches no queue state, so collapsing
  the whole flight into one pending event is faithful.
* `Event.remove id`, `Event.retry id`, `Event.clear` – calls to
  `removeUpload`, `retryUpload` and `clearCompleted`.

Besides the mirrored state, the model keeps three logs used only to state
properties, never read by the operations themselves:

* `notifLog` – one entry per observer-callback invocation (the snapshot
  passed to the callback), appended exactly where the code runs
  `callback(updatedUpload)`;
* `transLog` – the ground truth of status transitions: appended exactly at
  the map writes that change a record's `status` field (creation of a
  record is not a transition and is not logged);
* `revoked` – one entry per `URL.revokeObjectURL` call.
-/

namespace UploadQueue

inductive Status where
  | pending : Status
  | processing : Status
  | completed : Status
  | failed : Status
deriving DecidableEq

/-- The `PendingUpload` record of `src/types.ts` (the opaque `File` payload
is modelled by a numeric tag; `addresses` and `error` are the optional
fields, `thumbnail` the optional object-URL handle). -/
structure Upload where
  id : Nat
  file : Nat
  status : Status
  addresses : Option (List String)
  error : Option String
  timestamp : Nat
  thumbnail : Option Nat
deriving DecidableEq

def MAX_CONCURRENT_UPLOADS : Nat := 5

abbrev UploadMap := List (Nat × Upload)

/-- `Map.get`: first (and in reachable states unique) binding of the key. -/
def mapGet : UploadMap → Nat → Option Upload
  | [], _ => none
  | p :: rest, k => if p.1 = k then some p.2 else mapGet rest k

/-- `Map.set`: JS `Map.set` updates an existing key in place (keeping its
insertion-order position) and appends a fresh key at the back. -/
def mapSet : UploadMap → Nat → Upload → UploadMap
  | [], k, v => [(k, v)]
  | p :: rest, k, v => if p.1 = k then (k, v) :: rest else p :: mapSet rest k v

/-- `Map.delete`. -/
def mapDelete (m : UploadMap) (k : Nat) : UploadMap :=
  m.filter (fun p => decide (p.1 ≠ k))

/-- `Set.add` (JS `Set` ignores an element already present). -/
def setAdd (l : List Nat) (x : Nat) : List Nat :=
  if x ∈ l then l else l ++ [x]

/-- `Set.delete` / `Map.delete` on a key set. -/
def setDelete (l : List Nat) (x : Nat) : List Nat :=
  l.filter (fun y => decide (y ≠ x))

/-- The full state of the `UploadQueue` instance, together with the event
logs used to state observable properties. -/
@[ext]
structure QState where
  uploads : UploadMap
  processing : List Nat
  callbacks : List Nat
  inflight : List Nat
  nextId : Nat
  notifLog : List (Nat × Upload)
  transLog : List (Nat × Status)
  revoked : List Nat
deriving DecidableEq

def initState : QState :=
  { uploads := [], processing := [], callbacks := [], inflight := [],
    nextId := 0, notifLog := [], transLog := [], revoked := [] }

/-- `UploadQueue.updateUploadStatus`.  The spread
`{...upload, status, addresses, error}` overwrites all three fields (an
absent optional argument is `undefined`, i.e. `none`).  If the record is
gone the method returns without writing or notifying. -/
def updateUploadStatus (s : QState) (id : Nat) (status : Status)
    (addresses : Option (List String)) (error : Option String) : QState :=
  match mapGet s.uploads id with
  | none => s
  | some upload =>
    let updated : Upload :=
      { upload with status := status, addresses := addresses, error := error }
    let s1 : QState :=
      { s with uploads := mapSet s.uploads id updated,
               transLog := if upload.status = status then s.transLog
                           else s.transLog ++ [(id, status)] }
    if id ∈ s1.callbacks then
      { s1 with notifLog := s1.notifLog ++ [(id, updated)] }
    else s1

/-- The synchronous prefix of `UploadQueue.processUpload`: look the record
up; if it is gone, return (leaving the id wherever it is); otherwise start
the extraction call (`await` …), i.e. add an outstanding flight. -/
def processUploadStart (s : QState) (id : Nat) : QState :=
  match mapGet s.uploads id with
  | none => s
  | some _ => { s with inflight := s.inflight ++ [id] }

/-- The candidate of `processQueue`'s `find`: the first value of the map,
in insertion order, that is `pending` and not in the processing set. -/
def firstPending (s : QState) : Option Upload :=
  (s.uploads.map (fun p => p.2)).find?
    (fun u => decide (u.status = Status.pending ∧ u.id ∉ s.processing))

/-- `UploadQueue.processQueue`: return if the concurrency cap is reached;
otherwise admit the first pending upload, mark it processing, notify, and
start its worker. -/
def processQueue (s : QState) : QState :=
  if s.processing.length ≥ MAX_CONCURRENT_UPLOADS then s
  else
    match firstPending s with
    | none => s
    | some nextUpload =>
      let s1 : QState := { s with processing := setAdd s.processing nextUpload.id }
      let s2 := updateUploadStatus s1 nextUpload.id Status.processing none none
      processUploadStart s2 nextUpload.id

/-- `UploadQueue.addUpload`: create the thumbnail and the `pending` record,
register the callback, then sweep the queue.  Returns the new state (the
returned id is `s.nextId`). -/
def addUpload (s : QState) : QState :=
  let id := s.nextId
  let upload : Upload :=
    { id := id, file := id, status := Status.pending, addresses := none,
      error := none, timestamp := id, thumbnail := some id }
  let s1 : QState :=
    { s with uploads := mapSet s.uploads id upload,
             callbacks := setAdd s.callbacks id,
             nextId := s.nextId + 1 }
  processQueue s1

/-- The continuation of `UploadQueue.processUpload` once its extraction
call resolves (deliverable only for an outstanding flight): record the
outcome via `updateUploadStatus`, then the `finally` block removes the id
from the processing set and sweeps the queue. -/
def finishUpload (s : QState) (id : Nat) (outcome : Except String (List String)) : QState :=
  if id ∈ s.inflight then
    let s1 : QState := { s with inflight := s.inflight.erase id }
    let s2 :=
      match outcome with
      | Except.ok addrs => updateUploadStatus s1 id Status.completed (some addrs) none
      | Except.error msg => updateUploadStatus s1 id Status.failed none (some msg)
    let s3 : QState := { s2 with processing := setDelete s2.processing id }
    processQueue s3
  else s

/-- `UploadQueue.removeUpload`: revoke the thumbnail if the record exists
and has one, then delete the id from the three containers. -/
def removeUpload (s : QState) (id : Nat) : QState :=
  let s1 : QState :=
    match mapGet s.uploads id with
    | some upload =>
      match upload.thumbnail with
      | some h => { s with revoked := s.revoked ++ [h] }
      | none => s
    | none => s
  { s1 with uploads := mapDelete s1.uploads id,
            callbacks := setDelete s1.callbacks id,
            processing := setDelete s1.processing id }

/-- `UploadQueue.retryUpload`: a no-op unless the record exists with status
`failed`; then reset it to `pending` and sweep the queue. -/
def retryUpload (s : QState) (id : Nat) : QState :=
  match mapGet s.uploads id with
  | none => s
  | some upload =>
    if upload.status = Status.failed then
      processQueue (updateUploadStatus s id Status.pending none none)
    else s

/-- `UploadQueue.clearCompleted`: collect the completed ids, then remove
each in turn. -/
def clearCompleted (s : QState) : QState :=
  let completedIds :=
    (s.uploads.filter (fun p => decide (p.2.status = Status.completed))).map
      (fun p => p.1)
  completedIds.foldl removeUpload s

/-- `UploadQueue.getUpload`. -/
def getUpload (s : QState) (id : Nat) : Option Upload := mapGet s.uploads id

/-- `UploadQueue.getAllUploads`. -/
def getAllUploads (s : QState) : List Upload := s.uploads.map (fun p => p.2)

/-- The observable events of the system (§ file header). -/
inductive Event where
  | add : Event
  | complete : Nat → Except String (List String) → Event
  | remove : Nat → Event
  | retry : Nat → Event
  | clear : Event

def step (s : QState) : Event → QState
  | Event.add => addUpload s
  | Event.complete id r => finishUpload s id r
  | Event.remove id => removeUpload s id
  | Event.retry id => retryUpload s id
  | Event.clear => clearCompleted s

/-- Run an event trace from the fresh queue. -/
def run (t : List Event) : QState := t.foldl step initState

/-- Status of a live job, as `getUpload` reports it. -/
def statusOf (s : QState) (id : Nat) : Option Status :=
  (mapGet s.uploads id).map (fun u => u.status)

/-- The ids of the live jobs, in map insertion order. -/
def keys (s : QState) : List Nat := s.uploads.map (fun p => p.1)

/-- The statuses delivered to job `id`'s observer callback, in order. -/
def notifsFor (id : Nat) (log : List (Nat × Upload)) : List Status :=
  (log.filter (fun p => decide (p.1 = id))).map (fun p => p.2.status)

/-- The status transitions job `id`'s record actually underwent, in order. -/
def transFor (id : Nat) (log : List (Nat × Status)) : List Status :=
  (log.filter (fun p => decide (p.1 = id))).map (fun p => p.2)

/-- Number of live jobs whose status is `processing`. -/
def processingCount (s : QState) : Nat :=
  (s.uploads.filter (fun p => decide (p.2.status = Status.processing))).length

/-- `Dead id s`: the id is not live and, since ids are handed out freshly,
can never become live again. -/
def Dead (id : Nat) (s : QState) : Prop := id ∉ keys s ∧ id < s.nextId

/-- The callback-invocation log agrees entry by entry with the ground-truth
status-transition log: every notification reports a real transition and
every transition is notified, in order. -/
def Glob (s : QState) : Prop :=
  s.notifLog.map (fun p => (p.1, p.2.status)) = s.transLog

/-- The reachable-state invariant of the queue. -/
structure QInv (s : QState) : Prop where
  keysNodup : (keys s).Nodup
  keyMatch : ∀ p ∈ s.uploads, p.2.id = p.1
  thumbKey : ∀ p ∈ s.uploads, p.2.thumbnail = some p.1
  idsLt : ∀ p ∈ s.uploads, p.1 < s.nextId
  procNodup : s.processing.Nodup
  procLe : s.processing.length ≤ MAX_CONCURRENT_UPLOADS
  procSub : ∀ j ∈ s.processing, j ∈ keys s
  procStatus : ∀ p ∈ s.uploads, p.2.status = Status.processing → p.1 ∈ s.processing
  procInflight : ∀ p ∈ s.uploads, p.2.status = Status.processing → p.1 ∈ s.inflight
  cbEq : ∀ j, j ∈ s.callbacks ↔ j ∈ keys s
  inflightNodup : s.inflight.Nodup
  inflightLt : ∀ j ∈ s.inflight, j < s.nextId
  inflightStatus : ∀ j ∈ s.inflight, j ∈ keys s → statusOf s j = some Status.processing
  revNodup : s.revoked.Nodup
  revGone : ∀ h ∈ s.revoked, h ∉ keys s
  revLt : ∀ h ∈ s.revoked, h < s.nextId

/-! ### Association-map and set toolkit -/

theorem mapGet_mapSet_self (m : UploadMap) (k : Nat) (v : Upload) :
    mapGet (mapSet m k v) k = some v := by
  induction m with
  | nil => simp [mapGet, mapSet]
  | cons p rest ih =>
    by_cases h : p.1 = k
    · simp [mapGet, mapSet, h]
    · simp [mapGet, mapSet, h, ih]

theorem mapGet_mapSet_ne (m : UploadMap) (k k' : Nat) (v : Upload)
    (h : k' ≠ k) : mapGet (mapSet m k v) k' = mapGet m k' := by
  induction m with
  | nil => simp [mapGet, mapSet, Ne.symm h]
  | cons p rest ih =>
    by_cases hp : p.1 = k
    · have hk : ¬(k = k') := Ne.symm h
      have hp' : ¬(p.1 = k') := by rw [hp]; exact hk
      simp [mapGet, mapSet, hp, hk, hp']
    · by_cases hp' : p.1 = k' <;> simp [mapGet, mapSet, hp, hp', h, ih]

theorem mapGet_eq_none_of_not_mem {m : UploadMap} {k : Nat}
    (h : k ∉ m.map (fun p => p.1)) : mapGet m k = none := by
  induction m with
  | nil => rfl
  | cons p rest ih =>
    simp only [List.map_cons, List.mem_cons] at h
    push_neg at h
    simp [mapGet, Ne.symm h.1, ih h.2]

theorem mem_of_mapGet_eq_some {m : UploadMap} {k : Nat} {v : Upload}
    (h : mapGet m k = some v) : (k, v) ∈ m := by
  induction m with
  | nil => simp [mapGet] at h
  | cons p rest ih =>
    by_cases hp : p.1 = k
    · simp only [mapGet, hp, if_pos] at h
      cases h
      have hpe : (k, p.2) = p := by rw [← hp]
      exact hpe ▸ List.mem_cons_self _ _
    · simp only [mapGet, hp, if_neg, not_false_iff] at h
      exact List.mem_cons_of_mem _ (ih h)

theorem mem_keys_of_mapGet_eq_some {m : UploadMap} {k : Nat} {v : Upload}
    (h : mapGet m k = some v) : k ∈ m.map (fun p => p.1) := by
  have := mem_of_mapGet_eq_some h
  exact List.mem_map.mpr ⟨(k, v), this, rfl⟩

theorem mapGet_of_mem {m : UploadMap} {k : Nat} {v : Upload}
    (hnd : (m.map (fun p => p.1)).Nodup) (hm : (k, v) ∈ m) :
    mapGet m k = some v := by
  induction m with
  | nil => cases hm
  | cons p rest ih =>
    simp only [List.map_cons, List.nodup_cons] at hnd
    rcases List.mem_cons.mp hm with h | h
    · rw [← h]
      simp [mapGet]
    · have hne : p.1 ≠ k := by
        intro hc
        exact hnd.1 (by
          rw [hc]
          exact List.mem_map.mpr ⟨(k, v), h, rfl⟩)
      simp [mapGet, hne, ih hnd.2 h]

theorem keys_mapSet_of_mem {m : UploadMap} {k : Nat} (v : Upload)
    (h : k ∈ m.map (fun p => p.1)) :
    (mapSet m k v).map (fun p => p.1) = m.map (fun p => p.1) := by
  induction m with
  | nil => cases h
  | cons p rest ih =>
    by_cases hp : p.1 = k
    · simp [mapSet, hp]
    · simp only [List.map_cons, List.mem_cons] at h
      rcases h with h | h
      · exact absurd h.symm hp
      · simp [mapSet, hp, ih h]

theorem mapSet_of_not_mem {m : UploadMap} {k : Nat} (v : Upload)
    (h : k ∉ m.map (fun p => p.1)) : mapSet m k v = m ++ [(k, v)] := by
  induction m with
  | nil => rfl
  | cons p rest ih =>
    simp only [List.map_cons, List.mem_cons] at h
    push_neg at h
    simp [mapSet, Ne.symm h.1, ih h.2]

theorem mem_mapSet {m : UploadMap} {k : Nat} {v : Upload} {q : Nat × Upload}
    (h : q ∈ mapSet m k v) : q = (k, v) ∨ q ∈ m := by
  induction m with
  | nil => simpa [mapSet] using h
  | cons p rest ih =>
    by_cases hp : p.1 = k
    · simp only [mapSet, hp, if_pos] at h
      rcases List.mem_cons.mp h with h | h
      · exact Or.inl h
      · exact Or.inr (List.mem_cons_of_mem _ h)
    · simp only [mapSet, hp, if_neg, not_false_iff] at h
      rcases List.mem_cons.mp h with h | h
      · exact Or.inr (h ▸ List.mem_cons_self _ _)
      · rcases ih h with h | h
        · exact Or.inl h
        · exact Or.inr (List.mem_cons_of_mem _ h)

theorem mapGet_mapDelete_self (m : UploadMap) (k : Nat) :
    mapGet (mapDelete m k) k = none := by
  apply mapGet_eq_none_of_not_mem
  intro h
  rcases List.mem_map.mp h with ⟨q, hq, hq1⟩
  rcases List.mem_filter.mp hq with ⟨_, hq2⟩
  rw [hq1] at hq2
  simp at hq2

theorem mapDelete_cons (p : Nat × Upload) (rest : UploadMap) (k : Nat) :
    mapDelete (p :: rest) k =
      if p.1 = k then mapDelete rest k else p :: mapDelete rest k := by
  by_cases hp : p.1 = k <;> simp [mapDelete, List.filter_cons, hp]

theorem mapGet_mapDelete_ne (m : UploadMap) (k k' : Nat) (h : k' ≠ k) :
    mapGet (mapDelete m k) k' = mapGet m k' := by
  induction m with
  | nil => rfl
  | cons p rest ih =>
    rw [mapDelete_cons]
    by_cases hp : p.1 = k
    · have hne : ¬ p.1 = k' := by
        rw [hp]
        exact Ne.symm h
      simp [mapGet, hp, hne, Ne.symm h, ih]
    · by_cases hp' : p.1 = k' <;> simp [mapGet, hp, hp', h, Ne.symm h, ih]

theorem keys_mapDelete (m : UploadMap) (k : Nat) :
    (mapDelete m k).map (fun p => p.1) =
      (m.map (fun p => p.1)).filter (fun x => decide (x ≠ k)) := by
  induction m with
  | nil => rfl
  | cons p rest ih =>
    rw [mapDelete_cons]
    by_cases hp : p.1 = k <;> simp [List.filter_cons, hp, ih]

theorem mem_mapDelete_iff {m : UploadMap} {k : Nat} {q : Nat × Upload} :
    q ∈ mapDelete m k ↔ q ∈ m ∧ q.1 ≠ k := by
  simp [mapDelete]

theorem mem_setAdd {l : List Nat} {x y : Nat} :
    y ∈ setAdd l x ↔ y ∈ l ∨ y = x := by
  unfold setAdd
  split
  · rename_i h
    constructor
    · exact Or.inl
    · rintro (hy | rfl)
      · exact hy
      · exact h
  · simp

theorem setAdd_nodup {l : List Nat} (h : l.Nodup) (x : Nat) :
    (setAdd l x).Nodup := by
  unfold setAdd
  split
  · exact h
  · rename_i hx
    simpa [List.nodup_append, hx] using h

theorem setAdd_of_not_mem {l : List Nat} {x : Nat} (h : x ∉ l) :
    setAdd l x = l ++ [x] := by
  simp [setAdd, h]

theorem length_setAdd_le (l : List Nat) (x : Nat) :
    (setAdd l x).length ≤ l.length + 1 := by
  unfold setAdd
  split
  · exact Nat.le_succ_of_le (Nat.le_refl _)
  · simp

theorem mem_setDelete {l : List Nat} {x y : Nat} :
    y ∈ setDelete l x ↔ y ∈ l ∧ y ≠ x := by
  simp [setDelete]

theorem setDelete_nodup {l : List Nat} (h : l.Nodup) (x : Nat) :
    (setDelete l x).Nodup := h.filter _

theorem setDelete_of_not_mem {l : List Nat} {x : Nat} (h : x ∉ l) :
    setDelete l x = l := by
  apply List.filter_eq_self.mpr
  intro y hy
  simp only [decide_eq_true_eq]
  intro hc
  rw [hc] at hy
  exact h hy

theorem length_setDelete_le (l : List Nat) (x : Nat) :
    (setDelete l x).length ≤ l.length :=
  List.length_filter_le _ _

theorem length_setDelete_of_mem {l : List Nat} {x : Nat}
    (hnd : l.Nodup) (h : x ∈ l) :
    (setDelete l x).length + 1 = l.length := by
  induction l with
  | nil => cases h
  | cons y rest ih =>
    rw [List.nodup_cons] at hnd
    rcases List.mem_cons.mp h with rfl | h
    · have : setDelete (x :: rest) x = rest := by
        simp only [setDelete, List.filter_cons, decide_eq_true_eq]
        rw [if_neg (by simp)]
        exact setDelete_of_not_mem hnd.1
      rw [this]
      rfl
    · have hyx : y ≠ x := fun hc => hnd.1 (hc ▸ h)
      simp only [setDelete, List.filter_cons, decide_eq_true_eq, if_pos hyx,
        List.length_cons]
      rw [Nat.succ_add]
      exact congrArg Nat.succ (ih hnd.2 h)

/-! ### Characterizations of the queue operations -/

theorem updateUploadStatus_of_none {s : QState} {id : Nat}
    (h : mapGet s.uploads id = none) (st : Status)
    (a : Option (List String)) (e : Option String) :
    updateUploadStatus s id st a e = s := by
  unfold updateUploadStatus
  rw [h]

theorem updateUploadStatus_of_some {s : QState} {id : Nat} {u : Upload}
    (h : mapGet s.uploads id = some u) (st : Status)
    (a : Option (List String)) (e : Option String) :
    updateUploadStatus s id st a e =
      { s with
        uploads := mapSet s.uploads id { u with status := st, addresses := a, error := e },
        transLog := if u.status = st then s.transLog else s.transLog ++ [(id, st)],
        notifLog := if id ∈ s.callbacks then
            s.notifLog ++ [(id, { u with status := st, addresses := a, error := e })]
          else s.notifLog } := by
  unfold updateUploadStatus
  rw [h]
  by_cases h2 : id ∈ s.callbacks <;> simp [h2]

theorem updateUploadStatus_callbacks (s : QState) (id : Nat) (st : Status)
    (a : Option (List String)) (e : Option String) :
    (updateUploadStatus s id st a e).callbacks = s.callbacks := by
  cases h : mapGet s.uploads id
  · rw [updateUploadStatus_of_none h]
  · rw [updateUploadStatus_of_some h]

theorem updateUploadStatus_processing (s : QState) (id : Nat) (st : Status)
    (a : Option (List String)) (e : Option String) :
    (updateUploadStatus s id st a e).processing = s.processing := by
  cases h : mapGet s.uploads id
  · rw [updateUploadStatus_of_none h]
  · rw [updateUploadStatus_of_some h]

theorem updateUploadStatus_inflight (s : QState) (id : Nat) (st : Status)
    (a : Option (List String)) (e : Option String) :
    (updateUploadStatus s id st a e).inflight = s.inflight := by
  cases h : mapGet s.uploads id
  · rw [updateUploadStatus_of_none h]
  · rw [updateUploadStatus_of_some h]

theorem updateUploadStatus_nextId (s : QState) (id : Nat) (st : Status)
    (a : Option (List String)) (e : Option String) :
    (updateUploadStatus s id st a e).nextId = s.nextId := by
  cases h : mapGet s.uploads id
  · rw [updateUploadStatus_of_none h]
  · rw [updateUploadStatus_of_some h]

theorem updateUploadStatus_revoked (s : QState) (id : Nat) (st : Status)
    (a : Option (List String)) (e : Option String) :
    (updateUploadStatus s id st a e).revoked = s.revoked := by
  cases h : mapGet s.uploads id
  · rw [updateUploadStatus_of_none h]
  · rw [updateUploadStatus_of_some h]

theorem updateUploadStatus_keys (s : QState) (id : Nat) (st : Status)
    (a : Option (List String)) (e : Option String) :
    keys (updateUploadStatus s id st a e) = keys s := by
  cases h : mapGet s.uploads id
  · rw [updateUploadStatus_of_none h]
  · rw [updateUploadStatus_of_some h]
    exact keys_mapSet_of_mem _ (mem_keys_of_mapGet_eq_some h)

theorem updateUploadStatus_get_self {s : QState} {id : Nat} {u : Upload}
    (h : mapGet s.uploads id = some u) (st : Status)
    (a : Option (List String)) (e : Option String) :
    mapGet (updateUploadStatus s id st a e).uploads id =
      some { u with status := st, addresses := a, error := e } := by
  rw [updateUploadStatus_of_some h]
  exact mapGet_mapSet_self _ _ _

theorem updateUploadStatus_get_ne (s : QState) (id : Nat) (st : Status)
    (a : Option (List String)) (e : Option String) {j : Nat} (hj : j ≠ id) :
    mapGet (updateUploadStatus s id st a e).uploads j = mapGet s.uploads j := by
  cases h : mapGet s.uploads id
  · rw [updateUploadStatus_of_none h]
  · rw [updateUploadStatus_of_some h]
    exact mapGet_mapSet_ne _ _ _ _ hj

theorem processUploadStart_of_none {s : QState} {id : Nat}
    (h : mapGet s.uploads id = none) : processUploadStart s id = s := by
  unfold processUploadStart
  rw [h]

theorem processUploadStart_of_some {s : QState} {id : Nat} {u : Upload}
    (h : mapGet s.uploads id = some u) :
    processUploadStart s id = { s with inflight := s.inflight ++ [id] } := by
  unfold processUploadStart
  rw [h]

theorem processUploadStart_uploads (s : QState) (id : Nat) :
    (processUploadStart s id).uploads = s.uploads := by
  cases h : mapGet s.uploads id
  · rw [processUploadStart_of_none h]
  · rw [processUploadStart_of_some h]

theorem processUploadStart_processing (s : QState) (id : Nat) :
    (processUploadStart s id).processing = s.processing := by
  cases h : mapGet s.uploads id
  · rw [processUploadStart_of_none h]
  · rw [processUploadStart_of_some h]

theorem processUploadStart_callbacks (s : QState) (id : Nat) :
    (processUploadStart s id).callbacks = s.callbacks := by
  cases h : mapGet s.uploads id
  · rw [processUploadStart_of_none h]
  · rw [processUploadStart_of_some h]

theorem processUploadStart_nextId (s : QState) (id : Nat) :
    (processUploadStart s id).nextId = s.nextId := by
  cases h : mapGet s.uploads id
  · rw [processUploadStart_of_none h]
  · rw [processUploadStart_of_some h]

theorem processUploadStart_notifLog (s : QState) (id : Nat) :
    (processUploadStart s id).notifLog = s.notifLog := by
  cases h : mapGet s.uploads id
  · rw [processUploadStart_of_none h]
  · rw [processUploadStart_of_some h]

theorem processUploadStart_transLog (s : QState) (id : Nat) :
    (processUploadStart s id).transLog = s.transLog := by
  cases h : mapGet s.uploads id
  · rw [processUploadStart_of_none h]
  · rw [processUploadStart_of_some h]

theorem processUploadStart_revoked (s : QState) (id : Nat) :
    (processUploadStart s id).revoked = s.revoked := by
  cases h : mapGet s.uploads id
  · rw [processUploadStart_of_none h]
  · rw [processUploadStart_of_some h]

/-- `processQueue` either does nothing or admits the first pending upload. -/
theorem processQueue_cases (s : QState) :
    (processQueue s = s ∧
      (MAX_CONCURRENT_UPLOADS ≤ s.processing.length ∨ firstPending s = none)) ∨
    ∃ u, firstPending s = some u ∧
      s.processing.length < MAX_CONCURRENT_UPLOADS ∧
      processQueue s =
        processUploadStart
          (updateUploadStatus { s with processing := setAdd s.processing u.id }
            u.id Status.processing none none) u.id := by
  unfold processQueue
  split
  · rename_i hge
    exact Or.inl ⟨rfl, Or.inl hge⟩
  · rename_i hlt
    cases hf : firstPending s with
    | none => exact Or.inl ⟨rfl, Or.inr rfl⟩
    | some u =>
      exact Or.inr ⟨u, rfl, Nat.lt_of_not_le hlt, rfl⟩

/-- What `find?` guarantees about the admission candidate. -/
theorem firstPending_spec {s : QState} {u : Upload}
    (h : firstPending s = some u) :
    (∃ p ∈ s.uploads, p.2 = u) ∧ u.status = Status.pending ∧
      u.id ∉ s.processing := by
  have hmem := List.mem_of_find?_eq_some h
  have hpred := List.find?_some h
  rcases List.mem_map.mp hmem with ⟨p, hp, hpu⟩
  rw [decide_eq_true_eq] at hpred
  exact ⟨⟨p, hp, hpu⟩, hpred⟩

/-- If some pending unadmitted job exists, `firstPending` finds one. -/
theorem firstPending_isSome {s : QState} {p : Nat × Upload}
    (hp : p ∈ s.uploads) (hst : p.2.status = Status.pending)
    (hid : p.2.id ∉ s.processing) : (firstPending s).isSome := by
  apply List.find?_isSome.mpr
  refine ⟨p.2, List.mem_map.mpr ⟨p, hp, rfl⟩, ?_⟩
  rw [decide_eq_true_eq]
  exact ⟨hst, hid⟩

theorem processQueue_callbacks (s : QState) :
    (processQueue s).callbacks = s.callbacks := by
  rcases processQueue_cases s with ⟨he, _⟩ | ⟨u, _, _, he⟩
  · rw [he]
  · rw [he, processUploadStart_callbacks, updateUploadStatus_callbacks]

theorem processQueue_nextId (s : QState) :
    (processQueue s).nextId = s.nextId := by
  rcases processQueue_cases s with ⟨he, _⟩ | ⟨u, _, _, he⟩
  · rw [he]
  · rw [he, processUploadStart_nextId, updateUploadStatus_nextId]

theorem processQueue_revoked (s : QState) :
    (processQueue s).revoked = s.revoked := by
  rcases processQueue_cases s with ⟨he, _⟩ | ⟨u, _, _, he⟩
  · rw [he]
  · rw [he, processUploadStart_revoked, updateUploadStatus_revoked]

theorem processQueue_keys (s : QState) : keys (processQueue s) = keys s := by
  rcases processQueue_cases s with ⟨he, _⟩ | ⟨u, _, _, he⟩
  · rw [he]
  · rw [he]
    show ((processUploadStart _ _).uploads).map _ = _
    rw [processUploadStart_uploads]
    exact updateUploadStatus_keys _ _ _ _ _

theorem keys_mapSet_nodup {m : UploadMap} {k : Nat} (v : Upload)
    (hnd : (m.map (fun p => p.1)).Nodup) :
    ((mapSet m k v).map (fun p => p.1)).Nodup := by
  by_cases h : k ∈ m.map (fun p => p.1)
  · rw [keys_mapSet_of_mem v h]
    exact hnd
  · rw [mapSet_of_not_mem v h, List.map_append]
    simp only [List.map_cons, List.map_nil]
    rw [List.nodup_append]
    refine ⟨hnd, List.nodup_singleton _, ?_⟩
    intro a ha hk
    rw [List.mem_singleton.mp hk] at ha
    exact h ha

theorem eq_of_mem_mapSet_key {m : UploadMap} {k : Nat} {v : Upload}
    {q : Nat × Upload} (hnd : (m.map (fun p => p.1)).Nodup)
    (h : q ∈ mapSet m k v) (hk : q.1 = k) : q = (k, v) := by
  have h1 : mapGet (mapSet m k v) q.1 = some q.2 :=
    mapGet_of_mem (keys_mapSet_nodup v hnd) h
  rw [hk, mapGet_mapSet_self] at h1
  have h2 : v = q.2 := by injection h1
  calc q = (q.1, q.2) := rfl
    _ = (k, v) := by rw [hk, ← h2]

theorem statusOf_eq_of_get {s : QState} {id : Nat} {u : Upload}
    (h : mapGet s.uploads id = some u) : statusOf s id = some u.status := by
  simp [statusOf, h]

/-- The admission candidate is the live record under its own id. -/
theorem firstPending_get {s : QState} {u : Upload} (hinv : QInv s)
    (hf : firstPending s = some u) : mapGet s.uploads u.id = some u := by
  rcases firstPending_spec hf with ⟨⟨p, hp, hpu⟩, _, _⟩
  have hk := hinv.keyMatch p hp
  have hq : (u.id, u) = p := by
    rw [← hpu, hk]
  exact mapGet_of_mem hinv.keysNodup (by rw [hq]; exact hp)

/-- Full characterization of an admission step of `processQueue`. -/
theorem processQueue_admit_char {s : QState} {u : Upload} (hinv : QInv s)
    (hf : firstPending s = some u)
    (hlt : s.processing.length < MAX_CONCURRENT_UPLOADS) :
    processQueue s =
      { s with
        uploads := mapSet s.uploads u.id
          { u with status := Status.processing, addresses := none, error := none },
        processing := s.processing ++ [u.id],
        inflight := s.inflight ++ [u.id],
        transLog := s.transLog ++ [(u.id, Status.processing)],
        notifLog := s.notifLog ++
          [(u.id, { u with status := Status.processing, addresses := none,
                           error := none })] } := by
  rcases firstPending_spec hf with ⟨_, hst, hnp⟩
  have hget := firstPending_get hinv hf
  have hcb : u.id ∈ s.callbacks :=
    (hinv.cbEq u.id).mpr (mem_keys_of_mapGet_eq_some hget)
  unfold processQueue
  rw [if_neg (Nat.not_le.mpr hlt), hf]
  dsimp only
  unfold updateUploadStatus
  dsimp only
  rw [hget]
  dsimp only
  rw [hst]
  rw [if_neg (by decide : ¬ (Status.pending = Status.processing)), if_pos hcb]
  unfold processUploadStart
  dsimp only
  rw [mapGet_mapSet_self]
  dsimp only
  rw [setAdd_of_not_mem hnp]

/-! ### Preservation of the invariant -/

theorem QInv_processQueue {s : QState} (hinv : QInv s) : QInv (processQueue s) := by
  rcases processQueue_cases s with ⟨he, _⟩ | ⟨u, hf, hlt, _⟩
  · rw [he]
    exact hinv
  rcases firstPending_spec hf with ⟨_, hst, hnp⟩
  have hget := firstPending_get hinv hf
  have hkmem : u.id ∈ keys s := mem_keys_of_mapGet_eq_some hget
  have humem : (u.id, u) ∈ s.uploads := mem_of_mapGet_eq_some hget
  have hnin : u.id ∉ s.inflight := by
    intro hmem
    have hx := hinv.inflightStatus u.id hmem hkmem
    rw [statusOf_eq_of_get hget, hst] at hx
    simp at hx
  rw [processQueue_admit_char hinv hf hlt]
  have hkeys : (mapSet s.uploads u.id
      { u with status := Status.processing, addresses := none,
               error := none }).map (fun p => p.1) = keys s :=
    keys_mapSet_of_mem _ hkmem
  refine { keysNodup := ?_, keyMatch := ?_, thumbKey := ?_, idsLt := ?_,
           procNodup := ?_, procLe := ?_, procSub := ?_, procStatus := ?_,
           procInflight := ?_, cbEq := ?_, inflightNodup := ?_, inflightLt := ?_,
           inflightStatus := ?_, revNodup := ?_, revGone := ?_, revLt := ?_ }
  · unfold keys
    dsimp only
    rw [hkeys]
    exact hinv.keysNodup
  · intro p hp
    dsimp only at hp
    rcases mem_mapSet hp with rfl | hp
    · rfl
    · exact hinv.keyMatch p hp
  · intro p hp
    dsimp only at hp
    rcases mem_mapSet hp with rfl | hp
    · exact hinv.thumbKey (u.id, u) humem
    · exact hinv.thumbKey p hp
  · intro p hp
    dsimp only at hp ⊢
    rcases mem_mapSet hp with rfl | hp
    · exact hinv.idsLt (u.id, u) humem
    · exact hinv.idsLt p hp
  · dsimp only
    rw [List.nodup_append]
    refine ⟨hinv.procNodup, List.nodup_singleton _, ?_⟩
    intro a ha hk
    rw [List.mem_singleton.mp hk] at ha
    exact hnp ha
  · dsimp only
    rw [List.length_append]
    simp only [List.length_cons, List.length_nil]
    omega
  · intro j hj
    dsimp only at hj
    unfold keys
    dsimp only
    rw [hkeys]
    rcases List.mem_append.mp hj with hj | hj
    · exact hinv.procSub j hj
    · rw [List.mem_singleton.mp hj]
      exact hkmem
  · intro p hp hstp
    dsimp only at hp ⊢
    rcases mem_mapSet hp with rfl | hp
    · exact List.mem_append_right _ (List.mem_singleton.mpr rfl)
    · exact List.mem_append_left _ (hinv.procStatus p hp hstp)
  · intro p hp hstp
    dsimp only at hp ⊢
    rcases mem_mapSet hp with rfl | hp
    · exact List.mem_append_right _ (List.mem_singleton.mpr rfl)
    · exact List.mem_append_left _ (hinv.procInflight p hp hstp)
  · intro j
    unfold keys
    dsimp only
    rw [hkeys]
    exact hinv.cbEq j
  · dsimp only
    rw [List.nodup_append]
    refine ⟨hinv.inflightNodup, List.nodup_singleton _, ?_⟩
    intro a ha hk
    rw [List.mem_singleton.mp hk] at ha
    exact hnin ha
  · intro j hj
    dsimp only at hj ⊢
    rcases List.mem_append.mp hj with hj | hj
    · exact hinv.inflightLt j hj
    · rw [List.mem_singleton.mp hj]
      exact hinv.idsLt _ humem
  · intro j hj hjk
    unfold keys at hjk
    dsimp only at hj hjk
    rw [hkeys] at hjk
    rcases List.mem_append.mp hj with hj | hj
    · have hne : j ≠ u.id := fun hc => hnin (hc ▸ hj)
      unfold statusOf
      dsimp only
      rw [mapGet_mapSet_ne _ _ _ _ hne]
      exact hinv.inflightStatus j hj hjk
    · rw [List.mem_singleton.mp hj]
      unfold statusOf
      dsimp only
      rw [mapGet_mapSet_self]
      rfl
  · exact hinv.revNodup
  · intro h hh
    unfold keys
    dsimp only
    rw [hkeys]
    exact hinv.revGone h hh
  · exact hinv.revLt

theorem mapGet_ne_none_of_mem_keys {m : UploadMap} {k : Nat}
    (h : k ∈ m.map (fun p => p.1)) : mapGet m k ≠ none := by
  induction m with
  | nil => cases h
  | cons q rest ih =>
    by_cases hq : q.1 = k
    · simp [mapGet, hq]
    · simp only [List.map_cons, List.mem_cons] at h
      rcases h with h | h
      · exact absurd h.symm hq
      · simp only [mapGet, hq, if_neg, not_false_iff]
        exact ih h

theorem mapGet_eq_none_iff {m : UploadMap} {k : Nat} :
    mapGet m k = none ↔ k ∉ m.map (fun p => p.1) :=
  ⟨fun h hmem => mapGet_ne_none_of_mem_keys hmem h, mapGet_eq_none_of_not_mem⟩

theorem QInv_add_pre {s : QState} (hinv : QInv s) :
    QInv { s with
      uploads := mapSet s.uploads s.nextId
        { id := s.nextId, file := s.nextId, status := Status.pending,
          addresses := none, error := none, timestamp := s.nextId,
          thumbnail := some s.nextId },
      callbacks := setAdd s.callbacks s.nextId,
      nextId := s.nextId + 1 } := by
  have hnk : s.nextId ∉ keys s := by
    intro hmem
    rcases List.mem_map.mp hmem with ⟨p, hp, hpe⟩
    have := hinv.idsLt p hp
    omega
  have hupl : mapSet s.uploads s.nextId
      { id := s.nextId, file := s.nextId, status := Status.pending,
        addresses := none, error := none, timestamp := s.nextId,
        thumbnail := some s.nextId } =
      s.uploads ++ [(s.nextId,
        { id := s.nextId, file := s.nextId, status := Status.pending,
          addresses := none, error := none, timestamp := s.nextId,
          thumbnail := some s.nextId })] :=
    mapSet_of_not_mem _ hnk
  refine { keysNodup := ?_, keyMatch := ?_, thumbKey := ?_, idsLt := ?_,
           procNodup := ?_, procLe := ?_, procSub := ?_, procStatus := ?_,
           procInflight := ?_, cbEq := ?_, inflightNodup := ?_, inflightLt := ?_,
           inflightStatus := ?_, revNodup := ?_, revGone := ?_, revLt := ?_ }
  · unfold keys
    dsimp only
    rw [hupl, List.map_append]
    simp only [List.map_cons, List.map_nil]
    rw [List.nodup_append]
    refine ⟨hinv.keysNodup, List.nodup_singleton _, ?_⟩
    intro a ha hk
    rw [List.mem_singleton.mp hk] at ha
    exact hnk ha
  · intro p hp
    dsimp only at hp
    rw [hupl] at hp
    rcases List.mem_append.mp hp with hp | hp
    · exact hinv.keyMatch p hp
    · rw [List.mem_singleton.mp hp]
  · intro p hp
    dsimp only at hp
    rw [hupl] at hp
    rcases List.mem_append.mp hp with hp | hp
    · exact hinv.thumbKey p hp
    · rw [List.mem_singleton.mp hp]
  · intro p hp
    dsimp only at hp ⊢
    rw [hupl] at hp
    rcases List.mem_append.mp hp with hp | hp
    · have := hinv.idsLt p hp
      omega
    · rw [List.mem_singleton.mp hp]
      omega
  · exact hinv.procNodup
  · exact hinv.procLe
  · intro j hj
    dsimp only at hj
    unfold keys
    dsimp only
    rw [hupl, List.map_append]
    exact List.mem_append_left _ (hinv.procSub j hj)
  · intro p hp hstp
    dsimp only at hp ⊢
    rw [hupl] at hp
    rcases List.mem_append.mp hp with hp | hp
    · exact hinv.procStatus p hp hstp
    · rw [List.mem_singleton.mp hp] at hstp
      simp at hstp
  · intro p hp hstp
    dsimp only at hp ⊢
    rw [hupl] at hp
    rcases List.mem_append.mp hp with hp | hp
    · exact hinv.procInflight p hp hstp
    · rw [List.mem_singleton.mp hp] at hstp
      simp at hstp
  · intro j
    unfold keys
    dsimp only
    rw [hupl, List.map_append]
    simp only [List.map_cons, List.map_nil]
    rw [mem_setAdd, List.mem_append, List.mem_singleton]
    rw [hinv.cbEq j]
    rfl
  · exact hinv.inflightNodup
  · intro j hj
    dsimp only at hj ⊢
    have := hinv.inflightLt j hj
    omega
  · intro j hj hjk
    dsimp only at hj
    unfold keys at hjk
    dsimp only at hjk
    rw [hupl, List.map_append] at hjk
    have hjlt := hinv.inflightLt j hj
    have hne : j ≠ s.nextId := by omega
    have hjk' : j ∈ keys s := by
      rcases List.mem_append.mp hjk with h | h
      · exact h
      · simp only [List.map_cons, List.map_nil, List.mem_singleton] at h
        exact absurd h hne
    unfold statusOf
    dsimp only
    rw [mapGet_mapSet_ne _ _ _ _ hne]
    exact hinv.inflightStatus j hj hjk'
  · exact hinv.revNodup
  · intro h hh
    unfold keys
    dsimp only
    rw [hupl, List.map_append]
    intro hmem
    have hlt := hinv.revLt h hh
    rcases List.mem_append.mp hmem with hm | hm
    · exact hinv.revGone h hh hm
    · simp only [List.map_cons, List.map_nil, List.mem_singleton] at hm
      omega
  · intro h hh
    dsimp only
    have := hinv.revLt h hh
    omega

theorem QInv_addUpload {s : QState} (hinv : QInv s) : QInv (addUpload s) := by
  apply QInv_processQueue
  exact QInv_add_pre hinv

theorem QInv_finish_state {s : QState} {id : Nat} (hinv : QInv s)
    (hin : id ∈ s.inflight) {st : Status} (hst : st ≠ Status.processing)
    (a : Option (List String)) (e : Option String) :
    QInv { updateUploadStatus { s with inflight := s.inflight.erase id } id st a e with
           processing := setDelete
             (updateUploadStatus { s with inflight := s.inflight.erase id }
               id st a e).processing id } := by
  cases hget : mapGet s.uploads id with
  | none =>
    have hnk : id ∉ keys s := mapGet_eq_none_iff.mp hget
    have hnp : id ∉ s.processing := fun hc => hnk (hinv.procSub id hc)
    rw [updateUploadStatus_of_none
      (show mapGet (QState.mk s.uploads s.processing s.callbacks
        (s.inflight.erase id) s.nextId s.notifLog s.transLog s.revoked).uploads id
        = none from hget)]
    dsimp only
    rw [setDelete_of_not_mem hnp]
    refine { keysNodup := hinv.keysNodup, keyMatch := hinv.keyMatch,
             thumbKey := hinv.thumbKey, idsLt := hinv.idsLt,
             procNodup := hinv.procNodup, procLe := hinv.procLe,
             procSub := hinv.procSub, procStatus := hinv.procStatus,
             procInflight := ?_, cbEq := hinv.cbEq,
             inflightNodup := hinv.inflightNodup.erase id, inflightLt := ?_,
             inflightStatus := ?_, revNodup := hinv.revNodup,
             revGone := hinv.revGone, revLt := hinv.revLt }
    · intro p hp hstp
      have hne : p.1 ≠ id := by
        intro hc
        exact hnk (hc ▸ List.mem_map.mpr ⟨p, hp, rfl⟩)
      exact (List.mem_erase_of_ne hne).mpr (hinv.procInflight p hp hstp)
    · intro j hj
      exact hinv.inflightLt j (List.mem_of_mem_erase hj)
    · intro j hj hjk
      exact hinv.inflightStatus j (List.mem_of_mem_erase hj) hjk
  | some u =>
    have hkmem : id ∈ keys s := mem_keys_of_mapGet_eq_some hget
    have humem : (id, u) ∈ s.uploads := mem_of_mapGet_eq_some hget
    have hust : u.status = Status.processing := by
      have hx := hinv.inflightStatus id hin hkmem
      rw [statusOf_eq_of_get hget] at hx
      injection hx
    rw [updateUploadStatus_of_some
      (show mapGet (QState.mk s.uploads s.processing s.callbacks
        (s.inflight.erase id) s.nextId s.notifLog s.transLog s.revoked).uploads id
        = some u from hget) st a e]
    dsimp only
    have hkeys : (mapSet s.uploads id
        { u with status := st, addresses := a, error := e }).map (fun p => p.1) =
        keys s := keys_mapSet_of_mem _ hkmem
    refine { keysNodup := ?_, keyMatch := ?_, thumbKey := ?_, idsLt := ?_,
             procNodup := ?_, procLe := ?_, procSub := ?_, procStatus := ?_,
             procInflight := ?_, cbEq := ?_, inflightNodup := ?_, inflightLt := ?_,
             inflightStatus := ?_, revNodup := ?_, revGone := ?_, revLt := ?_ }
    · unfold keys
      dsimp only
      rw [hkeys]
      exact hinv.keysNodup
    · intro p hp
      dsimp only at hp
      rcases mem_mapSet hp with rfl | hp
      · exact hinv.keyMatch (id, u) humem
      · exact hinv.keyMatch p hp
    · intro p hp
      dsimp only at hp
      rcases mem_mapSet hp with rfl | hp
      · exact hinv.thumbKey (id, u) humem
      · exact hinv.thumbKey p hp
    · intro p hp
      dsimp only at hp ⊢
      rcases mem_mapSet hp with rfl | hp
      · exact hinv.idsLt (id, u) humem
      · exact hinv.idsLt p hp
    · exact setDelete_nodup hinv.procNodup id
    · exact Nat.le_trans (length_setDelete_le _ _) hinv.procLe
    · intro j hj
      dsimp only at hj
      unfold keys
      dsimp only
      rw [hkeys]
      exact hinv.procSub j (mem_setDelete.mp hj).1
    · intro p hp hstp
      dsimp only at hp ⊢
      by_cases hpi : p.1 = id
      · rw [eq_of_mem_mapSet_key hinv.keysNodup hp hpi] at hstp
        exact absurd hstp hst
      · rcases mem_mapSet hp with rfl | hp
        · exact absurd rfl hpi
        · exact mem_setDelete.mpr ⟨hinv.procStatus p hp hstp, hpi⟩
    · intro p hp hstp
      dsimp only at hp ⊢
      by_cases hpi : p.1 = id
      · rw [eq_of_mem_mapSet_key hinv.keysNodup hp hpi] at hstp
        exact absurd hstp hst
      · rcases mem_mapSet hp with rfl | hp
        · exact absurd rfl hpi
        · exact (List.mem_erase_of_ne hpi).mpr (hinv.procInflight p hp hstp)
    · intro j
      unfold keys
      dsimp only
      rw [hkeys]
      exact hinv.cbEq j
    · exact hinv.inflightNodup.erase id
    · intro j hj
      dsimp only at hj ⊢
      exact hinv.inflightLt j (List.mem_of_mem_erase hj)
    · intro j hj hjk
      dsimp only at hj
      unfold keys at hjk
      dsimp only at hjk
      rw [hkeys] at hjk
      rcases (hinv.inflightNodup.mem_erase_iff).mp hj with ⟨hne, hj'⟩
      unfold statusOf
      dsimp only
      rw [mapGet_mapSet_ne _ _ _ _ hne]
      exact hinv.inflightStatus j hj' hjk
    · exact hinv.revNodup
    · intro h hh
      unfold keys
      dsimp only
      rw [hkeys]
      exact hinv.revGone h hh
    · exact hinv.revLt

theorem QInv_finishUpload {s : QState} (hinv : QInv s) (id : Nat)
    (r : Except String (List String)) : QInv (finishUpload s id r) := by
  unfold finishUpload
  split
  · rename_i hin
    cases r with
    | ok addrs =>
      exact QInv_processQueue (QInv_finish_state hinv hin
        (by decide : Status.completed ≠ Status.processing) (some addrs) none)
    | error msg =>
      exact QInv_processQueue (QInv_finish_state hinv hin
        (by decide : Status.failed ≠ Status.processing) none (some msg))
  · exact hinv

theorem removeUpload_of_none {s : QState} {id : Nat}
    (h : mapGet s.uploads id = none) :
    removeUpload s id =
      { s with uploads := mapDelete s.uploads id,
               callbacks := setDelete s.callbacks id,
               processing := setDelete s.processing id } := by
  unfold removeUpload
  rw [h]

theorem removeUpload_of_some {s : QState} {id hh : Nat} {u : Upload}
    (h : mapGet s.uploads id = some u) (ht : u.thumbnail = some hh) :
    removeUpload s id =
      { s with uploads := mapDelete s.uploads id,
               callbacks := setDelete s.callbacks id,
               processing := setDelete s.processing id,
               revoked := s.revoked ++ [hh] } := by
  unfold removeUpload
  rw [h]
  dsimp only
  rw [ht]

theorem QInv_remove_core {s : QState} {id : Nat} {R : List Nat} (hinv : QInv s)
    (hRn : R.Nodup) (hRg : ∀ h ∈ R, h = id ∨ h ∉ keys s)
    (hRl : ∀ h ∈ R, h < s.nextId) :
    QInv { s with uploads := mapDelete s.uploads id,
                  callbacks := setDelete s.callbacks id,
                  processing := setDelete s.processing id,
                  revoked := R } := by
  have hkeysd : (mapDelete s.uploads id).map (fun p => p.1) =
      (keys s).filter (fun x => decide (x ≠ id)) := keys_mapDelete _ _
  refine { keysNodup := ?_, keyMatch := ?_, thumbKey := ?_, idsLt := ?_,
           procNodup := ?_, procLe := ?_, procSub := ?_, procStatus := ?_,
           procInflight := ?_, cbEq := ?_, inflightNodup := ?_, inflightLt := ?_,
           inflightStatus := ?_, revNodup := ?_, revGone := ?_, revLt := ?_ }
  · unfold keys
    dsimp only
    rw [hkeysd]
    exact hinv.keysNodup.filter _
  · intro p hp
    exact hinv.keyMatch p (mem_mapDelete_iff.mp hp).1
  · intro p hp
    exact hinv.thumbKey p (mem_mapDelete_iff.mp hp).1
  · intro p hp
    exact hinv.idsLt p (mem_mapDelete_iff.mp hp).1
  · exact setDelete_nodup hinv.procNodup id
  · exact Nat.le_trans (length_setDelete_le _ _) hinv.procLe
  · intro j hj
    dsimp only at hj
    rcases mem_setDelete.mp hj with ⟨hj1, hj2⟩
    unfold keys
    dsimp only
    rw [hkeysd]
    exact List.mem_filter.mpr ⟨hinv.procSub j hj1, by simpa using hj2⟩
  · intro p hp hstp
    dsimp only at hp ⊢
    rcases mem_mapDelete_iff.mp hp with ⟨hp1, hp2⟩
    exact mem_setDelete.mpr ⟨hinv.procStatus p hp1 hstp, hp2⟩
  · intro p hp hstp
    exact hinv.procInflight p (mem_mapDelete_iff.mp hp).1 hstp
  · intro j
    dsimp only
    unfold keys
    dsimp only
    rw [hkeysd]
    rw [mem_setDelete, List.mem_filter]
    rw [hinv.cbEq j]
    simp
  · exact hinv.inflightNodup
  · exact hinv.inflightLt
  · intro j hj hjk
    dsimp only at hj
    unfold keys at hjk
    dsimp only at hjk
    rw [hkeysd] at hjk
    rcases List.mem_filter.mp hjk with ⟨hjk1, hjk2⟩
    have hne : j ≠ id := by simpa using hjk2
    unfold statusOf
    dsimp only
    rw [mapGet_mapDelete_ne _ _ _ hne]
    exact hinv.inflightStatus j hj hjk1
  · exact hRn
  · intro h hh
    unfold keys
    dsimp only
    rw [hkeysd]
    intro hmem
    rcases List.mem_filter.mp hmem with ⟨hm1, hm2⟩
    rcases hRg h hh with rfl | hgone
    · simp at hm2
    · exact hgone hm1
  · exact hRl

theorem QInv_removeUpload {s : QState} (hinv : QInv s) (id : Nat) :
    QInv (removeUpload s id) := by
  cases hget : mapGet s.uploads id with
  | none =>
    rw [removeUpload_of_none hget]
    exact QInv_remove_core hinv hinv.revNodup
      (fun h hh => Or.inr (hinv.revGone h hh)) hinv.revLt
  | some u =>
    have humem : (id, u) ∈ s.uploads := mem_of_mapGet_eq_some hget
    have hkmem : id ∈ keys s := mem_keys_of_mapGet_eq_some hget
    have ht : u.thumbnail = some id := hinv.thumbKey (id, u) humem
    rw [removeUpload_of_some hget ht]
    refine QInv_remove_core hinv ?_ ?_ ?_
    · rw [List.nodup_append]
      refine ⟨hinv.revNodup, List.nodup_singleton _, ?_⟩
      intro a ha hk
      rw [List.mem_singleton.mp hk] at ha
      exact hinv.revGone id ha hkmem
    · intro h hh
      rcases List.mem_append.mp hh with hh | hh
      · exact Or.inr (hinv.revGone h hh)
      · exact Or.inl (List.mem_singleton.mp hh)
    · intro h hh
      rcases List.mem_append.mp hh with hh | hh
      · exact hinv.revLt h hh
      · rw [List.mem_singleton.mp hh]
        exact hinv.idsLt (id, u) humem

theorem QInv_retry_pre {s : QState} {id : Nat} {u : Upload} (hinv : QInv s)
    (hget : mapGet s.uploads id = some u) (hst : u.status = Status.failed) :
    QInv (updateUploadStatus s id Status.pending none none) := by
  rw [updateUploadStatus_of_some hget]
  have hkmem : id ∈ keys s := mem_keys_of_mapGet_eq_some hget
  have humem : (id, u) ∈ s.uploads := mem_of_mapGet_eq_some hget
  have hkeys : (mapSet s.uploads id
      { u with status := Status.pending, addresses := none,
               error := none }).map (fun p => p.1) = keys s :=
    keys_mapSet_of_mem _ hkmem
  have hnin : id ∉ s.inflight := by
    intro hmem
    have hx := hinv.inflightStatus id hmem hkmem
    rw [statusOf_eq_of_get hget, hst] at hx
    simp at hx
  refine { keysNodup := ?_, keyMatch := ?_, thumbKey := ?_, idsLt := ?_,
           procNodup := hinv.procNodup, procLe := hinv.procLe,
           procSub := ?_, procStatus := ?_, procInflight := ?_, cbEq := ?_,
           inflightNodup := hinv.inflightNodup, inflightLt := ?_,
           inflightStatus := ?_, revNodup := hinv.revNodup,
           revGone := ?_, revLt := hinv.revLt }
  · unfold keys
    dsimp only
    rw [hkeys]
    exact hinv.keysNodup
  · intro p hp
    dsimp only at hp
    rcases mem_mapSet hp with rfl | hp
    · exact hinv.keyMatch (id, u) humem
    · exact hinv.keyMatch p hp
  · intro p hp
    dsimp only at hp
    rcases mem_mapSet hp with rfl | hp
    · exact hinv.thumbKey (id, u) humem
    · exact hinv.thumbKey p hp
  · intro p hp
    dsimp only at hp ⊢
    rcases mem_mapSet hp with rfl | hp
    · exact hinv.idsLt (id, u) humem
    · exact hinv.idsLt p hp
  · intro j hj
    dsimp only at hj
    unfold keys
    dsimp only
    rw [hkeys]
    exact hinv.procSub j hj
  · intro p hp hstp
    dsimp only at hp ⊢
    rcases mem_mapSet hp with rfl | hp
    · simp at hstp
    · exact hinv.procStatus p hp hstp
  · intro p hp hstp
    dsimp only at hp ⊢
    rcases mem_mapSet hp with rfl | hp
    · simp at hstp
    · exact hinv.procInflight p hp hstp
  · intro j
    unfold keys
    dsimp only
    rw [hkeys]
    exact hinv.cbEq j
  · exact hinv.inflightLt
  · intro j hj hjk
    dsimp only at hj
    unfold keys at hjk
    dsimp only at hjk
    rw [hkeys] at hjk
    have hne : j ≠ id := fun hc => hnin (hc ▸ hj)
    unfold statusOf
    dsimp only
    rw [mapGet_mapSet_ne _ _ _ _ hne]
    exact hinv.inflightStatus j hj hjk
  · intro h hh
    unfold keys
    dsimp only
    rw [hkeys]
    exact hinv.revGone h hh

theorem QInv_retryUpload {s : QState} (hinv : QInv s) (id : Nat) :
    QInv (retryUpload s id) := by
  unfold retryUpload
  cases hget : mapGet s.uploads id with
  | none => exact hinv
  | some u =>
    dsimp only
    split
    · rename_i hst
      exact QInv_processQueue (QInv_retry_pre hinv hget hst)
    · exact hinv

theorem QInv_foldl_remove (L : List Nat) :
    ∀ {s : QState}, QInv s → QInv (L.foldl removeUpload s) := by
  induction L with
  | nil => intro s h; exact h
  | cons x xs ih =>
    intro s h
    exact ih (QInv_removeUpload h x)

theorem QInv_clearCompleted {s : QState} (hinv : QInv s) :
    QInv (clearCompleted s) :=
  QInv_foldl_remove _ hinv

theorem QInv_initState : QInv initState := by
  refine { keysNodup := ?_, keyMatch := ?_, thumbKey := ?_, idsLt := ?_,
           procNodup := ?_, procLe := ?_, procSub := ?_, procStatus := ?_,
           procInflight := ?_, cbEq := ?_, inflightNodup := ?_, inflightLt := ?_,
           inflightStatus := ?_, revNodup := ?_, revGone := ?_, revLt := ?_ } <;>
    simp [initState, keys, MAX_CONCURRENT_UPLOADS]

theorem QInv_step {s : QState} (hinv : QInv s) (e : Event) : QInv (step s e) := by
  cases e with
  | add => exact QInv_addUpload hinv
  | complete id r => exact QInv_finishUpload hinv id r
  | remove id => exact QInv_removeUpload hinv id
  | retry id => exact QInv_retryUpload hinv id
  | clear => exact QInv_clearCompleted hinv

theorem QInv_foldl (t : List Event) :
    ∀ {s : QState}, QInv s → QInv (t.foldl step s) := by
  induction t with
  | nil => intro s h; exact h
  | cons e rest ih =>
    intro s h
    exact ih (QInv_step h e)

/-- Every reachable state of the queue satisfies the invariant. -/
theorem QInv_run (t : List Event) : QInv (run t) :=
  QInv_foldl t QInv_initState

/-! ### Frame lemmas for `removeUpload` and friends -/

theorem removeUpload_uploads (s : QState) (id : Nat) :
    (removeUpload s id).uploads = mapDelete s.uploads id := by
  unfold removeUpload
  cases hget : mapGet s.uploads id with
  | none => rfl
  | some u =>
    dsimp only
    cases ht : u.thumbnail <;> rfl

theorem removeUpload_callbacks (s : QState) (id : Nat) :
    (removeUpload s id).callbacks = setDelete s.callbacks id := by
  unfold removeUpload
  cases hget : mapGet s.uploads id with
  | none => rfl
  | some u =>
    dsimp only
    cases ht : u.thumbnail <;> rfl

theorem removeUpload_processing (s : QState) (id : Nat) :
    (removeUpload s id).processing = setDelete s.processing id := by
  unfold removeUpload
  cases hget : mapGet s.uploads id with
  | none => rfl
  | some u =>
    dsimp only
    cases ht : u.thumbnail <;> rfl

theorem removeUpload_inflight (s : QState) (id : Nat) :
    (removeUpload s id).inflight = s.inflight := by
  unfold removeUpload
  cases hget : mapGet s.uploads id with
  | none => rfl
  | some u =>
    dsimp only
    cases ht : u.thumbnail <;> rfl

theorem removeUpload_nextId (s : QState) (id : Nat) :
    (removeUpload s id).nextId = s.nextId := by
  unfold removeUpload
  cases hget : mapGet s.uploads id with
  | none => rfl
  | some u =>
    dsimp only
    cases ht : u.thumbnail <;> rfl

theorem removeUpload_notifLog (s : QState) (id : Nat) :
    (removeUpload s id).notifLog = s.notifLog := by
  unfold removeUpload
  cases hget : mapGet s.uploads id with
  | none => rfl
  | some u =>
    dsimp only
    cases ht : u.thumbnail <;> rfl

theorem removeUpload_transLog (s : QState) (id : Nat) :
    (removeUpload s id).transLog = s.transLog := by
  unfold removeUpload
  cases hget : mapGet s.uploads id with
  | none => rfl
  | some u =>
    dsimp only
    cases ht : u.thumbnail <;> rfl

theorem mapDelete_idem (m : UploadMap) (k : Nat) :
    mapDelete (mapDelete m k) k = mapDelete m k := by
  apply List.filter_eq_self.mpr
  intro q hq
  unfold mapDelete at hq
  exact (List.mem_filter.mp hq).2

theorem setDelete_idem (l : List Nat) (x : Nat) :
    setDelete (setDelete l x) x = setDelete l x := by
  apply List.filter_eq_self.mpr
  intro q hq
  unfold setDelete at hq
  exact (List.mem_filter.mp hq).2

theorem mapDelete_eq_self {m : UploadMap} {k : Nat}
    (h : k ∉ m.map (fun p => p.1)) : mapDelete m k = m := by
  apply List.filter_eq_self.mpr
  intro q hq
  simp only [decide_eq_true_eq]
  intro hc
  exact h (hc ▸ List.mem_map.mpr ⟨q, hq, rfl⟩)

theorem removeUpload_revoked_of_none {s : QState} {id : Nat}
    (h : mapGet s.uploads id = none) :
    (removeUpload s id).revoked = s.revoked := by
  rw [removeUpload_of_none h]

/-! ### Detached ids: once removed (or never allocated), an id never gets a
record or a notification again -/

theorem notifsFor_append_ne {id j : Nat} {log : List (Nat × Upload)}
    {u : Upload} (h : j ≠ id) :
    notifsFor id (log ++ [(j, u)]) = notifsFor id log := by
  unfold notifsFor
  rw [List.filter_append]
  simp [h]

theorem notifsFor_uus (s : QState) {id : Nat} (hd : id ∉ keys s)
    (j : Nat) (st : Status) (a : Option (List String)) (e : Option String) :
    notifsFor id (updateUploadStatus s j st a e).notifLog =
      notifsFor id s.notifLog := by
  cases hget : mapGet s.uploads j with
  | none => rw [updateUploadStatus_of_none hget]
  | some u =>
    have hne : j ≠ id := fun hc => hd (hc ▸ mem_keys_of_mapGet_eq_some hget)
    rw [updateUploadStatus_of_some hget]
    dsimp only
    split
    · exact notifsFor_append_ne hne
    · rfl

theorem finishUpload_not_inflight {s : QState} {j : Nat}
    (h : j ∉ s.inflight) (r : Except String (List String)) :
    finishUpload s j r = s := by
  unfold finishUpload
  rw [if_neg h]

theorem finishUpload_ok {s : QState} {j : Nat} (hin : j ∈ s.inflight)
    (addrs : List String) :
    finishUpload s j (Except.ok addrs) =
      processQueue
        { updateUploadStatus { s with inflight := s.inflight.erase j } j
            Status.completed (some addrs) none with
          processing := setDelete
            (updateUploadStatus { s with inflight := s.inflight.erase j } j
              Status.completed (some addrs) none).processing j } := by
  unfold finishUpload
  rw [if_pos hin]

theorem finishUpload_error {s : QState} {j : Nat} (hin : j ∈ s.inflight)
    (msg : String) :
    finishUpload s j (Except.error msg) =
      processQueue
        { updateUploadStatus { s with inflight := s.inflight.erase j } j
            Status.failed none (some msg) with
          processing := setDelete
            (updateUploadStatus { s with inflight := s.inflight.erase j } j
              Status.failed none (some msg)).processing j } := by
  unfold finishUpload
  rw [if_pos hin]

theorem Dead_processQueue {s : QState} {id : Nat} (hd : Dead id s) :
    Dead id (processQueue s) ∧
      notifsFor id (processQueue s).notifLog = notifsFor id s.notifLog := by
  have hk : keys (processQueue s) = keys s := processQueue_keys s
  have hn : (processQueue s).nextId = s.nextId := processQueue_nextId s
  refine ⟨⟨by rw [hk]; exact hd.1, by rw [hn]; exact hd.2⟩, ?_⟩
  rcases processQueue_cases s with ⟨he, _⟩ | ⟨u, hf, hlt, he⟩
  · rw [he]
  · rw [he, processUploadStart_notifLog]
    exact notifsFor_uus { s with processing := setAdd s.processing u.id }
      hd.1 u.id Status.processing none none

theorem Dead_removeUpload {s : QState} {id : Nat} (hd : Dead id s) (j : Nat) :
    Dead id (removeUpload s j) ∧
      notifsFor id (removeUpload s j).notifLog = notifsFor id s.notifLog := by
  refine ⟨⟨?_, ?_⟩, by rw [removeUpload_notifLog]⟩
  · unfold keys
    rw [removeUpload_uploads, keys_mapDelete]
    intro hmem
    exact hd.1 (List.mem_of_mem_filter hmem)
  · rw [removeUpload_nextId]
    exact hd.2

theorem Dead_step {s : QState} {id : Nat} (hd : Dead id s) (e : Event) :
    Dead id (step s e) ∧
      notifsFor id (step s e).notifLog = notifsFor id s.notifLog := by
  cases e with
  | add =>
    show Dead id (addUpload s) ∧
      notifsFor id (addUpload s).notifLog = notifsFor id s.notifLog
    unfold addUpload
    have hd1 : Dead id { s with
        uploads := mapSet s.uploads s.nextId
          { id := s.nextId, file := s.nextId, status := Status.pending,
            addresses := none, error := none, timestamp := s.nextId,
            thumbnail := some s.nextId },
        callbacks := setAdd s.callbacks s.nextId,
        nextId := s.nextId + 1 } := by
      constructor
      · unfold keys
        dsimp only
        intro hmem
        by_cases hin : s.nextId ∈ s.uploads.map (fun p => p.1)
        · rw [keys_mapSet_of_mem _ hin] at hmem
          exact hd.1 hmem
        · rw [mapSet_of_not_mem _ hin, List.map_append] at hmem
          rcases List.mem_append.mp hmem with hm | hm
          · exact hd.1 hm
          · simp only [List.map_cons, List.map_nil, List.mem_singleton] at hm
            have h2 := hd.2
            omega
      · dsimp only
        have h2 := hd.2
        omega
    exact Dead_processQueue hd1
  | complete j r =>
    show Dead id (finishUpload s j r) ∧
      notifsFor id (finishUpload s j r).notifLog = notifsFor id s.notifLog
    by_cases hin : j ∈ s.inflight
    · have hd1 : Dead id { s with inflight := s.inflight.erase j } := hd
      cases r with
      | ok addrs =>
        rw [finishUpload_ok hin]
        have hu := notifsFor_uus { s with inflight := s.inflight.erase j }
          hd1.1 j Status.completed (some addrs) none
        have hd3 : Dead id { updateUploadStatus
            { s with inflight := s.inflight.erase j } j Status.completed
            (some addrs) none with
            processing := setDelete (updateUploadStatus
              { s with inflight := s.inflight.erase j } j Status.completed
              (some addrs) none).processing j } := by
          constructor
          · show id ∉ keys (updateUploadStatus
              { s with inflight := s.inflight.erase j } j Status.completed
              (some addrs) none)
            rw [updateUploadStatus_keys]
            exact hd1.1
          · show id < (updateUploadStatus
              { s with inflight := s.inflight.erase j } j Status.completed
              (some addrs) none).nextId
            rw [updateUploadStatus_nextId]
            exact hd1.2
        rcases Dead_processQueue hd3 with ⟨hdf, hnf⟩
        exact ⟨hdf, hnf.trans hu⟩
      | error msg =>
        rw [finishUpload_error hin]
        have hu := notifsFor_uus { s with inflight := s.inflight.erase j }
          hd1.1 j Status.failed none (some msg)
        have hd3 : Dead id { updateUploadStatus
            { s with inflight := s.inflight.erase j } j Status.failed
            none (some msg) with
            processing := setDelete (updateUploadStatus
              { s with inflight := s.inflight.erase j } j Status.failed
              none (some msg)).processing j } := by
          constructor
          · show id ∉ keys (updateUploadStatus
              { s with inflight := s.inflight.erase j } j Status.failed
              none (some msg))
            rw [updateUploadStatus_keys]
            exact hd1.1
          · show id < (updateUploadStatus
              { s with inflight := s.inflight.erase j } j Status.failed
              none (some msg)).nextId
            rw [updateUploadStatus_nextId]
            exact hd1.2
        rcases Dead_processQueue hd3 with ⟨hdf, hnf⟩
        exact ⟨hdf, hnf.trans hu⟩
    · rw [finishUpload_not_inflight hin]
      exact ⟨hd, rfl⟩
  | remove j => exact Dead_removeUpload hd j
  | retry j =>
    show Dead id (retryUpload s j) ∧
      notifsFor id (retryUpload s j).notifLog = notifsFor id s.notifLog
    unfold retryUpload
    cases hget : mapGet s.uploads j with
    | none => exact ⟨hd, rfl⟩
    | some u =>
      dsimp only
      split
      · have hu := notifsFor_uus s hd.1 j Status.pending none none
        have hd2 : Dead id (updateUploadStatus s j Status.pending none none) := by
          constructor
          · rw [updateUploadStatus_keys]
            exact hd.1
          · rw [updateUploadStatus_nextId]
            exact hd.2
        rcases Dead_processQueue hd2 with ⟨hdf, hnf⟩
        exact ⟨hdf, hnf.trans hu⟩
      · exact ⟨hd, rfl⟩
  | clear =>
    show Dead id (clearCompleted s) ∧
      notifsFor id (clearCompleted s).notifLog = notifsFor id s.notifLog
    unfold clearCompleted
    generalize (s.uploads.filter
      (fun p => decide (p.2.status = Status.completed))).map (fun p => p.1) = L
    induction L generalizing s with
    | nil => exact ⟨hd, rfl⟩
    | cons x xs ih =>
      rcases Dead_removeUpload hd x with ⟨hd1, hn1⟩
      rcases ih hd1 with ⟨hd2, hn2⟩
      exact ⟨hd2, hn2.trans hn1⟩

theorem Dead_foldl {id : Nat} (t : List Event) :
    ∀ {s : QState}, Dead id s →
      Dead id (t.foldl step s) ∧
        notifsFor id (t.foldl step s).notifLog = notifsFor id s.notifLog := by
  induction t with
  | nil => intro s hd; exact ⟨hd, rfl⟩
  | cons e rest ih =>
    intro s hd
    rcases Dead_step hd e with ⟨hd1, hn1⟩
    rcases ih hd1 with ⟨hd2, hn2⟩
    exact ⟨hd2, hn2.trans hn1⟩

/-! ### The notification log mirrors the transition log -/

theorem Glob_uus_of_none (s : QState) {id : Nat}
    (h : mapGet s.uploads id = none) (hg : Glob s) (st : Status)
    (a : Option (List String)) (e : Option String) :
    Glob (updateUploadStatus s id st a e) := by
  rw [updateUploadStatus_of_none h]
  exact hg

theorem Glob_uus (s : QState) {id : Nat} {u : Upload} (hg : Glob s)
    (hget : mapGet s.uploads id = some u) (hcb : id ∈ s.callbacks)
    (st : Status) (hne : ¬ (u.status = st)) (a : Option (List String))
    (e : Option String) :
    Glob (updateUploadStatus s id st a e) := by
  rw [updateUploadStatus_of_some hget]
  unfold Glob
  dsimp only
  rw [if_neg hne, if_pos hcb, List.map_append, hg]
  rfl

theorem Glob_processQueue {s : QState} (hinv : QInv s) (hg : Glob s) :
    Glob (processQueue s) := by
  rcases processQueue_cases s with ⟨he, _⟩ | ⟨u, hf, hlt, _⟩
  · rw [he]
    exact hg
  · rw [processQueue_admit_char hinv hf hlt]
    unfold Glob
    dsimp only
    rw [List.map_append, hg]
    rfl

theorem Glob_removeUpload {s : QState} (hg : Glob s) (j : Nat) :
    Glob (removeUpload s j) := by
  unfold Glob
  rw [removeUpload_notifLog, removeUpload_transLog]
  exact hg

theorem Glob_step {s : QState} (hinv : QInv s) (hg : Glob s) (e : Event) :
    Glob (step s e) := by
  cases e with
  | add =>
    exact Glob_processQueue (QInv_add_pre hinv) hg
  | complete j r =>
    show Glob (finishUpload s j r)
    by_cases hin : j ∈ s.inflight
    · have hg1 : Glob { s with inflight := s.inflight.erase j } := hg
      cases r with
      | ok addrs =>
        rw [finishUpload_ok hin]
        cases hget : mapGet s.uploads j with
        | none =>
          have hg2 := Glob_uus_of_none
            { s with inflight := s.inflight.erase j }
            hget hg1 Status.completed (some addrs) none
          exact Glob_processQueue
            (QInv_finish_state hinv hin
              (by decide : Status.completed ≠ Status.processing) (some addrs) none)
            hg2
        | some u =>
          have hkm : j ∈ keys s := mem_keys_of_mapGet_eq_some hget
          have hust : u.status = Status.processing := by
            have hx := hinv.inflightStatus j hin hkm
            rw [statusOf_eq_of_get hget] at hx
            injection hx
          have hcb : j ∈ s.callbacks := (hinv.cbEq j).mpr hkm
          have hg2 := Glob_uus { s with inflight := s.inflight.erase j }
            hg1 hget hcb Status.completed
            (by rw [hust]; decide) (some addrs) none
          exact Glob_processQueue
            (QInv_finish_state hinv hin
              (by decide : Status.completed ≠ Status.processing) (some addrs) none)
            hg2
      | error msg =>
        rw [finishUpload_error hin]
        cases hget : mapGet s.uploads j with
        | none =>
          have hg2 := Glob_uus_of_none
            { s with inflight := s.inflight.erase j }
            hget hg1 Status.failed none (some msg)
          exact Glob_processQueue
            (QInv_finish_state hinv hin
              (by decide : Status.failed ≠ Status.processing) none (some msg))
            hg2
        | some u =>
          have hkm : j ∈ keys s := mem_keys_of_mapGet_eq_some hget
          have hust : u.status = Status.processing := by
            have hx := hinv.inflightStatus j hin hkm
            rw [statusOf_eq_of_get hget] at hx
            injection hx
          have hcb : j ∈ s.callbacks := (hinv.cbEq j).mpr hkm
          have hg2 := Glob_uus { s with inflight := s.inflight.erase j }
            hg1 hget hcb Status.failed
            (by rw [hust]; decide) none (some msg)
          exact Glob_processQueue
            (QInv_finish_state hinv hin
              (by decide : Status.failed ≠ Status.processing) none (some msg))
            hg2
    · rw [finishUpload_not_inflight hin]
      exact hg
  | remove j => exact Glob_removeUpload hg j
  | retry j =>
    show Glob (retryUpload s j)
    unfold retryUpload
    cases hget : mapGet s.uploads j with
    | none => exact hg
    | some u =>
      dsimp only
      split
      · rename_i hst
        have hcb : j ∈ s.callbacks :=
          (hinv.cbEq j).mpr (mem_keys_of_mapGet_eq_some hget)
        exact Glob_processQueue (QInv_retry_pre hinv hget hst)
          (Glob_uus s hg hget hcb Status.pending
            (by rw [hst]; decide) none none)
      · exact hg
  | clear =>
    show Glob (clearCompleted s)
    unfold clearCompleted
    generalize (s.uploads.filter
      (fun p => decide (p.2.status = Status.completed))).map (fun p => p.1) = L
    induction L generalizing s with
    | nil => exact hg
    | cons x xs ih => exact ih (QInv_removeUpload hinv x) (Glob_removeUpload hg x)

theorem Glob_foldl (t : List Event) :
    ∀ {s : QState}, QInv s → Glob s → Glob (t.foldl step s) := by
  induction t with
  | nil => intro s _ hg; exact hg
  | cons e rest ih =>
    intro s hinv hg
    exact ih (QInv_step hinv e) (Glob_step hinv hg e)

/-- In every reachable state the callback log mirrors the transition log. -/
theorem Glob_run (t : List Event) : Glob (run t) :=
  Glob_foldl t QInv_initState rfl

theorem notifsFor_eq_transFor {s : QState} (hg : Glob s) (id : Nat) :
    notifsFor id s.notifLog = transFor id s.transLog := by
  unfold notifsFor transFor
  rw [← hg]
  generalize s.notifLog = L
  induction L with
  | nil => rfl
  | cons q rest ih =>
    simp only [List.map_cons, List.filter_cons]
    by_cases hq : q.1 = id
    · simp [hq, ih]
    · simp [hq, ih]

/-! ### Further helpers for the claim theorems -/

theorem statusOf_some_elim {s : QState} {id : Nat} {st : Status}
    (h : statusOf s id = some st) :
    ∃ u, mapGet s.uploads id = some u ∧ u.status = st := by
  unfold statusOf at h
  cases hg : mapGet s.uploads id with
  | none => rw [hg] at h; cases h
  | some u =>
    rw [hg] at h
    exact ⟨u, rfl, by injection h⟩

/-- One sweep extends the processing set by at most the first pending job. -/
theorem processQueue_processing_mem {s : QState} {j : Nat}
    (h : j ∈ (processQueue s).processing) :
    j ∈ s.processing ∨ (firstPending s).map (fun u => u.id) = some j := by
  rcases processQueue_cases s with ⟨he, _⟩ | ⟨u, hf, hlt, he⟩
  · rw [he] at h
    exact Or.inl h
  · rw [he, processUploadStart_processing, updateUploadStatus_processing] at h
    dsimp only at h
    rcases mem_setAdd.mp h with h | h
    · exact Or.inl h
    · subst h
      rw [hf]
      exact Or.inr rfl

/-- A record that is not pending survives a sweep untouched. -/
theorem processQueue_get_not_pending {s : QState} {id : Nat} {w : Upload}
    (hinv : QInv s) (hget : mapGet s.uploads id = some w)
    (hnp : w.status ≠ Status.pending) :
    mapGet (processQueue s).uploads id = some w := by
  rcases processQueue_cases s with ⟨he, _⟩ | ⟨v, hf, hlt, he⟩
  · rw [he]
    exact hget
  · have hgv := firstPending_get hinv hf
    rcases firstPending_spec hf with ⟨_, hvst, _⟩
    have hne : id ≠ v.id := by
      intro hc
      rw [← hc, hget] at hgv
      have : w = v := by injection hgv
      rw [this, hvst] at hnp
      exact hnp rfl
    rw [he]
    show mapGet ((processUploadStart _ _).uploads) id = some w
    rw [processUploadStart_uploads]
    rw [updateUploadStatus_get_ne _ _ _ _ _ hne]
    exact hget

theorem run_append (t1 t2 : List Event) :
    run (t1 ++ t2) = t2.foldl step (run t1) := by
  unfold run
  rw [List.foldl_append]

theorem run_remove_cons (t1 t2 : List Event) (id : Nat) :
    run (t1 ++ Event.remove id :: t2) =
      t2.foldl step (removeUpload (run t1) id) := by
  rw [run_append]
  rfl

theorem Dead_after_remove {s : QState} {id : Nat} (hlt : id < s.nextId) :
    Dead id (removeUpload s id) := by
  constructor
  · unfold keys
    rw [removeUpload_uploads, keys_mapDelete]
    intro hmem
    have hx := (List.mem_filter.mp hmem).2
    simp at hx
  · rw [removeUpload_nextId]
    exact hlt

theorem notifs_frozen_after_remove {s : QState} {id : Nat}
    (hlt : id < s.nextId) (t2 : List Event) :
    notifsFor id (t2.foldl step (removeUpload s id)).notifLog =
      notifsFor id s.notifLog := by
  rcases Dead_foldl t2 (Dead_after_remove hlt) with ⟨_, hnf⟩
  rw [hnf, removeUpload_notifLog]

theorem finishUpload_of_get_none {s : QState} {id : Nat}
    (h : mapGet s.uploads id = none) (r : Except String (List String)) :
    finishUpload s id r =
      if id ∈ s.inflight then
        processQueue { s with inflight := s.inflight.erase id,
                              processing := setDelete s.processing id }
      else s := by
  by_cases hin : id ∈ s.inflight
  · rw [if_pos hin]
    cases r with
    | ok addrs =>
      rw [finishUpload_ok hin]
      rw [updateUploadStatus_of_none
        (show mapGet (QState.mk s.uploads s.processing s.callbacks
          (s.inflight.erase id) s.nextId s.notifLog s.transLog s.revoked).uploads
          id = none from h)]
    | error msg =>
      rw [finishUpload_error hin]
      rw [updateUploadStatus_of_none
        (show mapGet (QState.mk s.uploads s.processing s.callbacks
          (s.inflight.erase id) s.nextId s.notifLog s.transLog s.revoked).uploads
          id = none from h)]
  · rw [if_neg hin, finishUpload_not_inflight hin]

/-- Once the record is gone, the outcome of a detached extraction call has
no influence at all on the state the completion produces. -/
theorem finishUpload_outcome_indep {s : QState} {id : Nat}
    (h : mapGet s.uploads id = none) (r r' : Except String (List String)) :
    finishUpload s id r = finishUpload s id r' := by
  rw [finishUpload_of_get_none h r, finishUpload_of_get_none h r']

theorem retryUpload_keys (s : QState) (id : Nat) :
    keys (retryUpload s id) = keys s := by
  unfold retryUpload
  cases hget : mapGet s.uploads id with
  | none => rfl
  | some u =>
    dsimp only
    split
    · rw [processQueue_keys, updateUploadStatus_keys]
    · rfl

theorem removeUpload_idem (s : QState) (id : Nat) :
    removeUpload (removeUpload s id) id = removeUpload s id := by
  have hnone : mapGet (removeUpload s id).uploads id = none := by
    rw [removeUpload_uploads]
    exact mapGet_mapDelete_self _ _
  rw [removeUpload_of_none hnone]
  ext1
  · show mapDelete (removeUpload s id).uploads id = _
    rw [removeUpload_uploads, mapDelete_idem]
  · show setDelete (removeUpload s id).processing id = _
    rw [removeUpload_processing, setDelete_idem]
  · show setDelete (removeUpload s id).callbacks id = _
    rw [removeUpload_callbacks, setDelete_idem]
  all_goals rfl

theorem removeUpload_unknown {s : QState} (hinv : QInv s) {id : Nat}
    (h : mapGet s.uploads id = none) : removeUpload s id = s := by
  have hnk : id ∉ keys s := mapGet_eq_none_iff.mp h
  rw [removeUpload_of_none h]
  rw [mapDelete_eq_self hnk,
    setDelete_of_not_mem (fun hc => hnk ((hinv.cbEq id).mp hc)),
    setDelete_of_not_mem (fun hc => hnk (hinv.procSub id hc))]

theorem processingCount_le {s : QState} (hinv : QInv s) :
    processingCount s ≤ s.processing.length := by
  unfold processingCount
  have hsl : List.Sublist
      ((s.uploads.filter
        (fun p => decide (p.2.status = Status.processing))).map (fun p => p.1))
      (s.uploads.map (fun p => p.1)) :=
    (List.filter_sublist _).map _
  have hnd := hsl.nodup hinv.keysNodup
  have hsub : ∀ j ∈ (s.uploads.filter
      (fun p => decide (p.2.status = Status.processing))).map (fun p => p.1),
      j ∈ s.processing := by
    intro j hj
    rcases List.mem_map.mp hj with ⟨p, hp, rfl⟩
    rcases List.mem_filter.mp hp with ⟨hp1, hp2⟩
    exact hinv.procStatus p hp1 (by simpa using hp2)
  calc (s.uploads.filter
      (fun p => decide (p.2.status = Status.processing))).length
      = ((s.uploads.filter
        (fun p => decide (p.2.status = Status.processing))).map
          (fun p => p.1)).length := (List.length_map _ _).symm
    _ ≤ s.processing.length := (hnd.subperm hsub).length_le

/-- Core of the worker-completion postcondition: the outcome is recorded on
the job record, the concurrency slot is released, and the final sweep keeps
the processing set full whenever a pending candidate exists. -/
theorem finish_core {s S3 : QState} {id : Nat} {u : Upload} (hinv : QInv s)
    (hin : id ∈ s.inflight) (hget : mapGet s.uploads id = some u)
    {st : Status} (hnp : st ≠ Status.pending) (hnpr : st ≠ Status.processing)
    (a : Option (List String)) (e : Option String)
    (hS : S3 = { updateUploadStatus { s with inflight := s.inflight.erase id }
        id st a e with
      processing := setDelete (updateUploadStatus
        { s with inflight := s.inflight.erase id } id st a e).processing id }) :
    mapGet (processQueue S3).uploads id =
      some { u with status := st, addresses := a, error := e } ∧
    id ∉ (processQueue S3).processing ∧
    ((∃ p ∈ s.uploads, p.1 ≠ id ∧ p.2.status = Status.pending ∧
        p.1 ∉ s.processing) →
      (processQueue S3).processing.length = s.processing.length) := by
  subst hS
  have humem : (id, u) ∈ s.uploads := mem_of_mapGet_eq_some hget
  have hkm : id ∈ keys s := mem_keys_of_mapGet_eq_some hget
  have hust : u.status = Status.processing := by
    have hx := hinv.inflightStatus id hin hkm
    rw [statusOf_eq_of_get hget] at hx
    injection hx
  have hidproc : id ∈ s.processing := hinv.procStatus (id, u) humem hust
  have hinv3 : QInv { updateUploadStatus
      { s with inflight := s.inflight.erase id } id st a e with
      processing := setDelete (updateUploadStatus
        { s with inflight := s.inflight.erase id } id st a e).processing id } :=
    QInv_finish_state hinv hin hnpr a e
  have hproc2 : (updateUploadStatus { s with inflight := s.inflight.erase id }
      id st a e).processing = s.processing :=
    updateUploadStatus_processing _ _ _ _ _
  have hS2get : mapGet (updateUploadStatus
      { s with inflight := s.inflight.erase id } id st a e).uploads id =
      some { u with status := st, addresses := a, error := e } :=
    updateUploadStatus_get_self
      (show mapGet (QState.mk s.uploads s.processing s.callbacks
        (s.inflight.erase id) s.nextId s.notifLog s.transLog s.revoked).uploads
        id = some u from hget) st a e
  have hS3get : mapGet ({ updateUploadStatus
      { s with inflight := s.inflight.erase id } id st a e with
      processing := setDelete (updateUploadStatus
        { s with inflight := s.inflight.erase id } id st a e).processing
        id } : QState).uploads id =
      some { u with status := st, addresses := a, error := e } := hS2get
  have hlen3 : (setDelete s.processing id).length + 1 = s.processing.length :=
    length_setDelete_of_mem hinv.procNodup hidproc
  refine ⟨?_, ?_, ?_⟩
  · exact processQueue_get_not_pending hinv3 hS3get hnp
  · intro hmem
    rcases processQueue_processing_mem hmem with h | h
    · have h' : id ∈ setDelete s.processing id := by
        have hx : id ∈ setDelete (updateUploadStatus
            { s with inflight := s.inflight.erase id } id st a e).processing
            id := h
        rw [hproc2] at hx
        exact hx
      exact (mem_setDelete.mp h').2 rfl
    · cases hfp : firstPending { updateUploadStatus
          { s with inflight := s.inflight.erase id } id st a e with
          processing := setDelete (updateUploadStatus
            { s with inflight := s.inflight.erase id } id st a e).processing
            id } with
      | none => rw [hfp] at h; cases h
      | some v =>
        rw [hfp] at h
        have hvid : v.id = id := by simpa using h
        have hgv := firstPending_get hinv3 hfp
        rw [hvid, hS3get] at hgv
        rcases firstPending_spec hfp with ⟨_, hvst, _⟩
        have hv : { u with status := st, addresses := a, error := e } = v := by
          injection hgv
        rw [← hv] at hvst
        exact hnp hvst
  · rintro ⟨p, hp, hpne, hpst, hpnp⟩
    have hgp : mapGet s.uploads p.1 = some p.2 :=
      mapGet_of_mem hinv.keysNodup hp
    have hgp3 : mapGet ({ updateUploadStatus
        { s with inflight := s.inflight.erase id } id st a e with
        processing := setDelete (updateUploadStatus
          { s with inflight := s.inflight.erase id } id st a e).processing
          id } : QState).uploads p.1 = some p.2 := by
      show mapGet (updateUploadStatus
        { s with inflight := s.inflight.erase id } id st a e).uploads p.1 =
        some p.2
      rw [updateUploadStatus_get_ne _ _ _ _ _ hpne]
      exact hgp
    have hpid : p.2.id = p.1 := hinv.keyMatch p hp
    have hS3proc : ({ updateUploadStatus
        { s with inflight := s.inflight.erase id } id st a e with
        processing := setDelete (updateUploadStatus
          { s with inflight := s.inflight.erase id } id st a e).processing
          id } : QState).processing = setDelete s.processing id := by
      show setDelete (updateUploadStatus
        { s with inflight := s.inflight.erase id } id st a e).processing id = _
      rw [hproc2]
    have hcand : (firstPending { updateUploadStatus
        { s with inflight := s.inflight.erase id } id st a e with
        processing := setDelete (updateUploadStatus
          { s with inflight := s.inflight.erase id } id st a e).processing
          id }).isSome := by
      apply firstPending_isSome (mem_of_mapGet_eq_some hgp3) hpst
      rw [hpid, hS3proc]
      intro hc
      exact hpnp (mem_setDelete.mp hc).1
    rcases processQueue_cases { updateUploadStatus
        { s with inflight := s.inflight.erase id } id st a e with
        processing := setDelete (updateUploadStatus
          { s with inflight := s.inflight.erase id } id st a e).processing
          id } with ⟨he, hor⟩ | ⟨v, hfv, hlt3, he⟩
    · rcases hor with hor | hor
      · rw [hS3proc] at hor
        have hle := hinv.procLe
        unfold MAX_CONCURRENT_UPLOADS at hor hle
        omega
      · rw [hor] at hcand
        cases hcand
    · rw [he, processUploadStart_processing, updateUploadStatus_processing]
      dsimp only
      rcases firstPending_spec hfv with ⟨_, _, hvnp⟩
      rw [setAdd_of_not_mem hvnp, List.length_append, hS3proc]
      simp only [List.length_cons, List.length_nil]
      omega

/-! ### `clearCompleted` as a fold of removals -/

theorem foldl_remove_get (L : List Nat) :
    ∀ (s : QState) (j : Nat),
      mapGet ((L.foldl removeUpload s).uploads) j =
        if j ∈ L then none else mapGet s.uploads j := by
  induction L with
  | nil =>
    intro s j
    simp
  | cons x xs ih =>
    intro s j
    show mapGet ((xs.foldl removeUpload (removeUpload s x)).uploads) j = _
    rw [ih]
    by_cases hj : j ∈ xs
    · simp [hj, List.mem_cons]
    · by_cases hx : j = x
      · subst hx
        simp only [hj, if_false, List.mem_cons, true_or, if_true]
        rw [removeUpload_uploads]
        exact mapGet_mapDelete_self _ _
      · simp only [hj, if_false, List.mem_cons, hx, false_or, if_neg hj]
        rw [removeUpload_uploads]
        exact mapGet_mapDelete_ne _ _ _ hx

theorem foldl_remove_processing (L : List Nat) :
    ∀ (s : QState) (j : Nat),
      (j ∈ (L.foldl removeUpload s).processing ↔
        j ∈ s.processing ∧ j ∉ L) := by
  induction L with
  | nil =>
    intro s j
    simp
  | cons x xs ih =>
    intro s j
    show j ∈ (xs.foldl removeUpload (removeUpload s x)).processing ↔ _
    rw [ih, removeUpload_processing, mem_setDelete]
    simp only [List.mem_cons]
    constructor
    · rintro ⟨⟨h1, h2⟩, h3⟩
      exact ⟨h1, by rintro (rfl | hc) <;> [exact h2 rfl; exact h3 hc]⟩
    · rintro ⟨h1, h2⟩
      exact ⟨⟨h1, fun hc => h2 (Or.inl hc)⟩, fun hc => h2 (Or.inr hc)⟩

theorem foldl_remove_callbacks (L : List Nat) :
    ∀ (s : QState) (j : Nat),
      (j ∈ (L.foldl removeUpload s).callbacks ↔
        j ∈ s.callbacks ∧ j ∉ L) := by
  induction L with
  | nil =>
    intro s j
    simp
  | cons x xs ih =>
    intro s j
    show j ∈ (xs.foldl removeUpload (removeUpload s x)).callbacks ↔ _
    rw [ih, removeUpload_callbacks, mem_setDelete]
    simp only [List.mem_cons]
    constructor
    · rintro ⟨⟨h1, h2⟩, h3⟩
      exact ⟨h1, by rintro (rfl | hc) <;> [exact h2 rfl; exact h3 hc]⟩
    · rintro ⟨h1, h2⟩
      exact ⟨⟨h1, fun hc => h2 (Or.inl hc)⟩, fun hc => h2 (Or.inr hc)⟩

theorem foldl_remove_notifLog (L : List Nat) :
    ∀ (s : QState), (L.foldl removeUpload s).notifLog = s.notifLog := by
  induction L with
  | nil => intro s; rfl
  | cons x xs ih =>
    intro s
    show (xs.foldl removeUpload (removeUpload s x)).notifLog = _
    rw [ih, removeUpload_notifLog]

theorem foldl_remove_count (L : List Nat) :
    ∀ (s : QState), L.Nodup →
      (∀ x ∈ L, ∃ w, mapGet s.uploads x = some w ∧ w.thumbnail = some x) →
      ∀ j, (L.foldl removeUpload s).revoked.count j =
        s.revoked.count j + (if j ∈ L then 1 else 0) := by
  induction L with
  | nil =>
    intro s _ _ j
    simp
  | cons x xs ih =>
    intro s hnd hall j
    rcases hall x (List.mem_cons_self _ _) with ⟨w, hw, hwt⟩
    have hrm : (removeUpload s x).revoked = s.revoked ++ [x] := by
      rw [removeUpload_of_some hw hwt]
    rw [List.nodup_cons] at hnd
    have hall2 : ∀ y ∈ xs, ∃ w2, mapGet (removeUpload s x).uploads y = some w2 ∧
        w2.thumbnail = some y := by
      intro y hy
      rcases hall y (List.mem_cons_of_mem _ hy) with ⟨w2, hw2, hwt2⟩
      refine ⟨w2, ?_, hwt2⟩
      rw [removeUpload_uploads,
        mapGet_mapDelete_ne _ _ _ (fun hc => hnd.1 (by rw [← hc]; exact hy))]
      exact hw2
    show (xs.foldl removeUpload (removeUpload s x)).revoked.count j = _
    rw [ih _ hnd.2 hall2 j, hrm, List.count_append]
    by_cases hjx : j = x
    · subst hjx
      have hjxs : j ∉ xs := hnd.1
      simp [List.mem_cons, hjxs]
    · simp [List.mem_cons, hjx, List.count_singleton]

/-- Everything `clearCompleted` does, stated per job. -/
theorem clearCompleted_spec {s : QState} (hinv : QInv s) {id : Nat}
    {u : Upload} (hget : mapGet s.uploads id = some u) :
    (u.status = Status.completed →
      mapGet (clearCompleted s).uploads id = none ∧
      id ∉ (clearCompleted s).callbacks ∧
      id ∉ (clearCompleted s).processing ∧
      (clearCompleted s).revoked.count id = s.revoked.count id + 1) ∧
    (u.status ≠ Status.completed →
      mapGet (clearCompleted s).uploads id = some u ∧
      (id ∈ (clearCompleted s).processing ↔ id ∈ s.processing) ∧
      (id ∈ (clearCompleted s).callbacks ↔ id ∈ s.callbacks) ∧
      (clearCompleted s).revoked.count id = s.revoked.count id) ∧
    (clearCompleted s).notifLog = s.notifLog := by
  have hclear : clearCompleted s =
      ((s.uploads.filter (fun p => decide (p.2.status =
        Status.completed))).map (fun p => p.1)).foldl removeUpload s := rfl
  have hLnd : ((s.uploads.filter (fun p => decide (p.2.status =
      Status.completed))).map (fun p => p.1)).Nodup :=
    (((List.filter_sublist _).map _).nodup hinv.keysNodup)
  have hthumb : ∀ x ∈ (s.uploads.filter (fun p => decide (p.2.status =
      Status.completed))).map (fun p => p.1),
      ∃ w, mapGet s.uploads x = some w ∧ w.thumbnail = some x := by
    intro x hx
    rcases List.mem_map.mp hx with ⟨p, hp, rfl⟩
    have hp1 := (List.mem_filter.mp hp).1
    exact ⟨p.2, mapGet_of_mem hinv.keysNodup hp1, hinv.thumbKey p hp1⟩
  have hmemL : id ∈ (s.uploads.filter (fun p => decide (p.2.status =
      Status.completed))).map (fun p => p.1) ↔
      u.status = Status.completed := by
    constructor
    · intro hmem
      rcases List.mem_map.mp hmem with ⟨p, hp, hpe⟩
      rcases List.mem_filter.mp hp with ⟨hp1, hp2⟩
      have hgp : mapGet s.uploads p.1 = some p.2 :=
        mapGet_of_mem hinv.keysNodup hp1
      rw [hpe, hget] at hgp
      have hpu : u = p.2 := by injection hgp
      rw [hpu]
      simpa using hp2
    · intro hc
      apply List.mem_map.mpr
      exact ⟨(id, u), List.mem_filter.mpr
        ⟨mem_of_mapGet_eq_some hget, by simpa using hc⟩, rfl⟩
  refine ⟨?_, ?_, ?_⟩
  · intro hc
    have hidL := hmemL.mpr hc
    refine ⟨?_, ?_, ?_, ?_⟩
    · rw [hclear, foldl_remove_get]
      rw [if_pos hidL]
    · rw [hclear]
      intro hcb
      exact ((foldl_remove_callbacks _ s id).mp hcb).2 hidL
    · rw [hclear]
      intro hcb
      exact ((foldl_remove_processing _ s id).mp hcb).2 hidL
    · rw [hclear, foldl_remove_count _ s hLnd hthumb id, if_pos hidL]
  · intro hne
    have hidL : id ∉ (s.uploads.filter (fun p => decide (p.2.status =
        Status.completed))).map (fun p => p.1) :=
      fun hmem => hne (hmemL.mp hmem)
    refine ⟨?_, ?_, ?_, ?_⟩
    · rw [hclear, foldl_remove_get, if_neg hidL]
      exact hget
    · rw [hclear, foldl_remove_processing]
      simp [hidL]
    · rw [hclear, foldl_remove_callbacks]
      simp [hidL]
    · rw [hclear, foldl_remove_count _ s hLnd hthumb id, if_neg hidL]
      exact Nat.add_zero _
  · rw [hclear, foldl_remove_notifLog]

/-- Status of the job just admitted by a sweep. -/
theorem statusOf_after_admit {X : QState} {k : Nat} {w : Upload}
    (hg : mapGet X.uploads k = some w) (j : Nat) (hj : j = k) :
    statusOf (processUploadStart
      (updateUploadStatus X k Status.processing none none) k) j =
      some Status.processing := by
  subst hj
  unfold statusOf
  rw [processUploadStart_uploads, updateUploadStatus_get_self hg]
  rfl

/-- Status of any other job is untouched by an admission. -/
theorem statusOf_after_admit_ne {X : QState} {k j : Nat} (hj : j ≠ k) :
    statusOf (processUploadStart
      (updateUploadStatus X k Status.processing none none) k) j =
      statusOf X j := by
  unfold statusOf
  rw [processUploadStart_uploads, updateUploadStatus_get_ne _ _ _ _ _ hj]

/-! ## The claims -/

/-- C1: for every sequence of submit (`addUpload`), retry (`retryUpload`),
remove (`removeUpload`) and worker-completion events, at every observable
point the number of live jobs with status `processing` — equally, the size
of the `processingUploads` set — is at most `MAX_CONCURRENT_UPLOADS = 5`. -/
theorem concurrency_cap_invariant (t : List Event) :
    processingCount (run t) ≤ MAX_CONCURRENT_UPLOADS ∧
    (run t).processing.length ≤ MAX_CONCURRENT_UPLOADS :=
  ⟨Nat.le_trans (processingCount_le (QInv_run t)) (QInv_run t).procLe,
   (QInv_run t).procLe⟩

/-- C2: if `removeUpload id` is called while job `id` has status
`processing`, then (whatever happens afterwards) the record is gone —
`getAllUploads` contains no upload with that id — no observer notification
for `id` is ever delivered after the removal, and when the still-in-flight
extraction call eventually resolves, the state it produces does not depend
on the outcome at all: the outcome is applied to no job record and notified
to no observer. -/
theorem remove_detaches_inflight_job (t1 t2 : List Event) (id : Nat)
    (h : statusOf (run t1) id = some Status.processing) :
    mapGet (run (t1 ++ Event.remove id :: t2)).uploads id = none ∧
    (∀ v ∈ getAllUploads (run (t1 ++ Event.remove id :: t2)), v.id ≠ id) ∧
    notifsFor id (run (t1 ++ Event.remove id :: t2)).notifLog =
      notifsFor id (run t1).notifLog ∧
    ∀ r r', step (run (t1 ++ Event.remove id :: t2)) (Event.complete id r) =
      step (run (t1 ++ Event.remove id :: t2)) (Event.complete id r') := by
  have hinv := QInv_run t1
  rcases statusOf_some_elim h with ⟨u, hget, hust⟩
  have hlt : id < (run t1).nextId :=
    hinv.idsLt (id, u) (mem_of_mapGet_eq_some hget)
  have hrw := run_remove_cons t1 t2 id
  rcases Dead_foldl t2 (Dead_after_remove hlt) with ⟨hdf, _⟩
  have hinvf : QInv (run (t1 ++ Event.remove id :: t2)) := QInv_run _
  have hnone : mapGet (run (t1 ++ Event.remove id :: t2)).uploads id = none := by
    rw [hrw]
    exact mapGet_eq_none_of_not_mem hdf.1
  refine ⟨hnone, ?_, ?_, ?_⟩
  · intro v hv
    unfold getAllUploads at hv
    rcases List.mem_map.mp hv with ⟨p, hp, rfl⟩
    rw [hinvf.keyMatch p hp]
    intro hc
    exact mapGet_ne_none_of_mem_keys (List.mem_map.mpr ⟨p, hp, hc⟩) hnone
  · rw [hrw]
    exact notifs_frozen_after_remove hlt t2
  · intro r r'
    exact finishUpload_outcome_indep hnone r r'

theorem remove_detaches_inflight_job_witness :
    statusOf (run [Event.add]) 0 = some Status.processing ∧
    (mapGet (run ([Event.add] ++ Event.remove 0 :: [])).uploads 0 = none ∧
     (∀ v ∈ getAllUploads (run ([Event.add] ++ Event.remove 0 :: [])),
        v.id ≠ 0) ∧
     notifsFor 0 (run ([Event.add] ++ Event.remove 0 :: [])).notifLog =
       notifsFor 0 (run [Event.add]).notifLog ∧
     ∀ r r', step (run ([Event.add] ++ Event.remove 0 :: []))
         (Event.complete 0 r) =
       step (run ([Event.add] ++ Event.remove 0 :: []))
         (Event.complete 0 r')) :=
  ⟨by decide, remove_detaches_inflight_job [Event.add] [] 0 (by decide)⟩

/-- C3, counterexample: jobs 0–4 are admitted, 5 queues, 0 fails and its
freed slot admits 5, then job 6 is submitted (pending, cap full) and job 0
is retried.  `Map.set` keeps an existing key at its old position, so the
retried job 0 sits at the front of the backlog, not the back: when job 1's
slot frees, 0 is admitted while 6 — submitted before the retry and still
pending — is passed over.  This refutes "the retried job receives a fresh
queue position at the back of the backlog". -/
theorem retry_requeued_at_back_cex :
    statusOf (run [Event.add, Event.add, Event.add, Event.add, Event.add,
      Event.add, Event.complete 0 (Except.error "e"), Event.add,
      Event.retry 0, Event.complete 1 (Except.ok [])]) 0 =
        some Status.processing ∧
    statusOf (run [Event.add, Event.add, Event.add, Event.add, Event.add,
      Event.add, Event.complete 0 (Except.error "e"), Event.add,
      Event.retry 0, Event.complete 1 (Except.ok [])]) 6 =
        some Status.pending := by
  decide

/-- C3, amended: admission order is strict FIFO over the job map's
insertion order — each sweep admits the earliest pending unadmitted job —
but a job retried via `retryUpload` keeps its original map position (the
key order of the job map is unchanged by a retry), so it re-enters the
backlog at its original submission position, not at the back, and may be
admitted before still-pending jobs that were submitted after it. -/
theorem retry_keeps_original_position (t : List Event) (id : Nat) :
    keys (run (t ++ [Event.retry id])) = keys (run t) ∧
    ∀ j, j ∈ (processQueue (run t)).processing →
      j ∈ (run t).processing ∨
        (firstPending (run t)).map (fun u => u.id) = some j := by
  constructor
  · rw [run_append]
    exact retryUpload_keys (run t) id
  · intro j hj
    exact processQueue_processing_mem hj

theorem retry_keeps_original_position_witness :
    keys (run ([Event.add] ++ [Event.retry 0])) = keys (run [Event.add]) ∧
    (0 ∈ (processQueue (run [Event.add])).processing ∧
     (0 ∈ (run [Event.add]).processing ∨
      (firstPending (run [Event.add])).map (fun u => u.id) = some 0)) :=
  ⟨(retry_keeps_original_position [Event.add] 0).1,
   by decide,
   (retry_keeps_original_position [Event.add] 0).2 0 (by decide)⟩

/-- C4: the observer callback registered at submission fires exactly once
per status transition of the job, in transition order — the sequence of
statuses delivered to job `id`'s callback equals the sequence of status
changes its record actually underwent (creation with the initial `pending`
status is not a transition and is notified to nobody) — and after
`removeUpload id` no notification for `id` is ever delivered again. -/
theorem observer_exactly_once (t1 t2 t : List Event) (id : Nat)
    (hlt : id < (run t1).nextId) :
    notifsFor id (run (t1 ++ Event.remove id :: t2)).notifLog =
      notifsFor id (run t1).notifLog ∧
    notifsFor id (run t).notifLog = transFor id (run t).transLog := by
  constructor
  · rw [run_remove_cons]
    exact notifs_frozen_after_remove hlt t2
  · exact notifsFor_eq_transFor (Glob_run t) id

theorem observer_exactly_once_witness :
    0 < (run [Event.add]).nextId ∧
    (notifsFor 0 (run ([Event.add] ++ Event.remove 0 :: [])).notifLog =
      notifsFor 0 (run [Event.add]).notifLog ∧
     notifsFor 0 (run [Event.add]).notifLog =
      transFor 0 (run [Event.add]).transLog) :=
  ⟨by decide, observer_exactly_once [Event.add] [] [Event.add] 0 (by decide)⟩

/-- C5: when an admitted job's extraction call resolves, any failure is
recorded on the job as status `failed` with the error message (success as
`completed`), and in all cases the concurrency slot is released and the
queue is swept again before the worker returns: whenever some pending
unadmitted job exists the sweep refills the freed slot, so no failure
strands a slot or stops backlog progress.  (No exception propagates: the
completion step is a total function of the state.) -/
theorem worker_failure_contained (t : List Event) (id : Nat)
    (r : Except String (List String))
    (hst : statusOf (run t) id = some Status.processing)
    (hin : id ∈ (run t).inflight) :
    (∀ msg, r = Except.error msg →
      statusOf (step (run t) (Event.complete id r)) id = some Status.failed ∧
      ∃ u, mapGet (step (run t) (Event.complete id r)).uploads id = some u ∧
        u.error = some msg) ∧
    (∀ addrs, r = Except.ok addrs →
      statusOf (step (run t) (Event.complete id r)) id =
        some Status.completed) ∧
    id ∉ (step (run t) (Event.complete id r)).processing ∧
    ((∃ p ∈ (run t).uploads, p.1 ≠ id ∧ p.2.status = Status.pending ∧
        p.1 ∉ (run t).processing) →
      (step (run t) (Event.complete id r)).processing.length =
        (run t).processing.length) := by
  have hinv := QInv_run t
  rcases statusOf_some_elim hst with ⟨u, hget, hust⟩
  cases r with
  | ok addrs =>
    have hstep : step (run t) (Event.complete id (Except.ok addrs)) =
        processQueue { updateUploadStatus
          { run t with inflight := (run t).inflight.erase id } id
          Status.completed (some addrs) none with
          processing := setDelete (updateUploadStatus
            { run t with inflight := (run t).inflight.erase id } id
            Status.completed (some addrs) none).processing id } :=
      finishUpload_ok hin addrs
    rcases finish_core hinv hin hget
      (by decide : Status.completed ≠ Status.pending)
      (by decide : Status.completed ≠ Status.processing)
      (some addrs) none rfl with ⟨hg, hnp2, hlen⟩
    refine ⟨?_, ?_, ?_, ?_⟩
    · intro msg hmsg
      simp at hmsg
    · intro addrs2 ha
      have haa : addrs = addrs2 := by injection ha
      subst haa
      rw [hstep]
      exact statusOf_eq_of_get hg
    · rw [hstep]
      exact hnp2
    · rw [hstep]
      exact hlen
  | error msg =>
    have hstep : step (run t) (Event.complete id (Except.error msg)) =
        processQueue { updateUploadStatus
          { run t with inflight := (run t).inflight.erase id } id
          Status.failed none (some msg) with
          processing := setDelete (updateUploadStatus
            { run t with inflight := (run t).inflight.erase id } id
            Status.failed none (some msg)).processing id } :=
      finishUpload_error hin msg
    rcases finish_core hinv hin hget
      (by decide : Status.failed ≠ Status.pending)
      (by decide : Status.failed ≠ Status.processing)
      none (some msg) rfl with ⟨hg, hnp2, hlen⟩
    refine ⟨?_, ?_, ?_, ?_⟩
    · intro msg2 hmsg
      have hmm : msg = msg2 := by injection hmsg
      subst hmm
      rw [hstep]
      exact ⟨statusOf_eq_of_get hg, _, hg, rfl⟩
    · intro addrs2 ha
      simp at ha
    · rw [hstep]
      exact hnp2
    · rw [hstep]
      exact hlen

theorem worker_failure_contained_witness :
    (statusOf (run [Event.add]) 0 = some Status.processing ∧
      0 ∈ (run [Event.add]).inflight) ∧
    ((∀ msg, (Except.error "boom" : Except String (List String)) =
        Except.error msg →
      statusOf (step (run [Event.add])
        (Event.complete 0 (Except.error "boom"))) 0 = some Status.failed ∧
      ∃ u, mapGet (step (run [Event.add])
          (Event.complete 0 (Except.error "boom"))).uploads 0 = some u ∧
        u.error = some msg) ∧
    (∀ addrs, (Except.error "boom" : Except String (List String)) =
        Except.ok addrs →
      statusOf (step (run [Event.add])
        (Event.complete 0 (Except.error "boom"))) 0 =
        some Status.completed) ∧
    0 ∉ (step (run [Event.add])
      (Event.complete 0 (Except.error "boom"))).processing ∧
    ((∃ p ∈ (run [Event.add]).uploads, p.1 ≠ 0 ∧
        p.2.status = Status.pending ∧ p.1 ∉ (run [Event.add]).processing) →
      (step (run [Event.add])
        (Event.complete 0 (Except.error "boom"))).processing.length =
        (run [Event.add]).processing.length)) :=
  ⟨⟨by decide, by decide⟩,
   worker_failure_contained [Event.add] 0 (Except.error "boom")
     (by decide) (by decide)⟩

/-- C6: `retryUpload id` mutates state only when the job exists with status
`failed` — it then becomes `pending` and admission is attempted, so it ends
up `pending` or already `processing` — while on a job in any other status,
or on an unknown id, the entire queue state is left unchanged (and no error
is raised: the operation is total). -/
theorem retry_mutates_only_failed (t : List Event) (id : Nat) :
    (statusOf (run t) id ≠ some Status.failed →
      step (run t) (Event.retry id) = run t) ∧
    (statusOf (run t) id = some Status.failed →
      statusOf (step (run t) (Event.retry id)) id = some Status.pending ∨
      statusOf (step (run t) (Event.retry id)) id = some Status.processing) := by
  constructor
  · intro hne
    show retryUpload (run t) id = run t
    unfold retryUpload
    cases hget : mapGet (run t).uploads id with
    | none => rfl
    | some u =>
      dsimp only
      rw [if_neg (fun hc => hne (by rw [statusOf_eq_of_get hget, hc]))]
  · intro hf
    rcases statusOf_some_elim hf with ⟨u, hget, hust⟩
    show statusOf (retryUpload (run t) id) id = some Status.pending ∨
      statusOf (retryUpload (run t) id) id = some Status.processing
    unfold retryUpload
    rw [hget]
    dsimp only
    rw [if_pos hust]
    have hS2get : mapGet (updateUploadStatus (run t) id Status.pending none
        none).uploads id =
        some { u with
                status := Status.pending, addresses := none, error := none } :=
      updateUploadStatus_get_self hget Status.pending none none
    rcases processQueue_cases (updateUploadStatus (run t) id Status.pending
        none none) with ⟨he, _⟩ | ⟨v, hfv, hlt2, he⟩
    · left
      rw [he]
      exact statusOf_eq_of_get hS2get
    · rw [he]
      by_cases hv : v.id = id
      · right
        have hg2 : mapGet ({ updateUploadStatus (run t) id Status.pending
            none none with processing := setAdd (updateUploadStatus (run t)
            id Status.pending none none).processing v.id } : QState).uploads
            v.id =
            some { u with
                    status := Status.pending, addresses := none,
                    error := none } := by
          show mapGet (updateUploadStatus (run t) id Status.pending
            none none).uploads v.id = _
          rw [hv]
          exact hS2get
        exact statusOf_after_admit hg2 id hv.symm
      · left
        rw [statusOf_after_admit_ne (fun hc => hv hc.symm)]
        exact statusOf_eq_of_get hS2get

theorem retry_mutates_only_failed_witness :
    statusOf (run [Event.add]) 0 ≠ some Status.failed ∧
    step (run [Event.add]) (Event.retry 0) = run [Event.add] :=
  ⟨by decide, (retry_mutates_only_failed [Event.add] 0).1 (by decide)⟩

/-- C7: `removeUpload` is idempotent — removing the same id twice equals
removing it once (as whole states, so job map, callback map and processing
set are all unaffected by the second call), removing an unknown id is the
identity and raises no error, and a job's thumbnail is revoked at most once
(the revocation log of a reachable state never holds a handle twice). -/
theorem remove_idempotent_single_release (t : List Event) (id : Nat) :
    removeUpload (removeUpload (run t) id) id = removeUpload (run t) id ∧
    (mapGet (run t).uploads id = none → removeUpload (run t) id = run t) ∧
    (run t).revoked.count id ≤ 1 :=
  ⟨removeUpload_idem (run t) id,
   fun h => removeUpload_unknown (QInv_run t) h,
   List.nodup_iff_count_le_one.mp (QInv_run t).revNodup id⟩

theorem remove_idempotent_single_release_witness :
    mapGet (run []).uploads 0 = none ∧ removeUpload (run []) 0 = run [] :=
  ⟨by decide, (remove_idempotent_single_release [] 0).2.1 (by decide)⟩

/-- C8: a job whose extraction call resolves successfully with an empty
sequence of addresses becomes `completed` with that empty sequence as its
result and no error — it does not become `failed`. -/
theorem empty_result_completes (t : List Event) (id : Nat)
    (hst : statusOf (run t) id = some Status.processing)
    (hin : id ∈ (run t).inflight) :
    ∃ u2, mapGet (step (run t)
        (Event.complete id (Except.ok []))).uploads id = some u2 ∧
      u2.status = Status.completed ∧ u2.addresses = some ([] : List String) ∧
      u2.error = none := by
  have hinv := QInv_run t
  rcases statusOf_some_elim hst with ⟨u, hget, hust⟩
  have hstep : step (run t) (Event.complete id (Except.ok [])) =
      processQueue { updateUploadStatus
        { run t with inflight := (run t).inflight.erase id } id
        Status.completed (some []) none with
        processing := setDelete (updateUploadStatus
          { run t with inflight := (run t).inflight.erase id } id
          Status.completed (some []) none).processing id } :=
    finishUpload_ok hin []
  rcases finish_core hinv hin hget
    (by decide : Status.completed ≠ Status.pending)
    (by decide : Status.completed ≠ Status.processing)
    (some []) none rfl with ⟨hg, _, _⟩
  refine ⟨{ u with
             status := Status.completed, addresses := some [],
             error := none }, ?_, rfl, rfl, rfl⟩
  rw [hstep]
  exact hg

theorem empty_result_completes_witness :
    (statusOf (run [Event.add]) 0 = some Status.processing ∧
      0 ∈ (run [Event.add]).inflight) ∧
    (∃ u2, mapGet (step (run [Event.add])
        (Event.complete 0 (Except.ok []))).uploads 0 = some u2 ∧
      u2.status = Status.completed ∧ u2.addresses = some ([] : List String) ∧
      u2.error = none) :=
  ⟨⟨by decide, by decide⟩,
   empty_result_completes [Event.add] 0 (by decide) (by decide)⟩

/-- C9: `removeUpload` on a `processing` job removes the id from the
processing set immediately while the extraction call is still outstanding
(the id stays in the in-flight set), so a later sweep can admit another job
while the removed job's call is still running — the concrete trace ends
with six outstanding extraction calls, exceeding `MAX_CONCURRENT_UPLOADS`. -/
theorem remove_processing_frees_slot (t : List Event) (id : Nat)
    (hst : statusOf (run t) id = some Status.processing) :
    id ∉ (step (run t) (Event.remove id)).processing ∧
    id ∈ (step (run t) (Event.remove id)).inflight ∧
    (run [Event.add, Event.add, Event.add, Event.add, Event.add,
      Event.remove 0, Event.add]).inflight.length =
      MAX_CONCURRENT_UPLOADS + 1 := by
  have hinv := QInv_run t
  rcases statusOf_some_elim hst with ⟨u, hget, hust⟩
  refine ⟨?_, ?_, by decide⟩
  · show id ∉ (removeUpload (run t) id).processing
    rw [removeUpload_processing]
    intro hc
    exact (mem_setDelete.mp hc).2 rfl
  · show id ∈ (removeUpload (run t) id).inflight
    rw [removeUpload_inflight]
    exact hinv.procInflight (id, u) (mem_of_mapGet_eq_some hget) hust

theorem remove_processing_frees_slot_witness :
    statusOf (run [Event.add]) 0 = some Status.processing ∧
    (0 ∉ (step (run [Event.add]) (Event.remove 0)).processing ∧
     0 ∈ (step (run [Event.add]) (Event.remove 0)).inflight ∧
     (run [Event.add, Event.add, Event.add, Event.add, Event.add,
       Event.remove 0, Event.add]).inflight.length =
       MAX_CONCURRENT_UPLOADS + 1) :=
  ⟨by decide, remove_processing_frees_slot [Event.add] 0 (by decide)⟩

/-- C10: `clearCompleted` removes exactly the jobs whose status is
`completed` — each is deleted from the job map, callback map and
processing set and its thumbnail revoked exactly once — while every job in
any other status keeps its record, processing-set membership and callback
registration, with no extra revocation; no notification is delivered. -/
theorem clearCompleted_removes_exactly_completed (t : List Event) (id : Nat)
    (u : Upload) (hget : mapGet (run t).uploads id = some u) :
    (u.status = Status.completed →
      mapGet (step (run t) Event.clear).uploads id = none ∧
      id ∉ (step (run t) Event.clear).callbacks ∧
      id ∉ (step (run t) Event.clear).processing ∧
      (step (run t) Event.clear).revoked.count id =
        (run t).revoked.count id + 1) ∧
    (u.status ≠ Status.completed →
      mapGet (step (run t) Event.clear).uploads id = some u ∧
      (id ∈ (step (run t) Event.clear).processing ↔
        id ∈ (run t).processing) ∧
      (id ∈ (step (run t) Event.clear).callbacks ↔
        id ∈ (run t).callbacks) ∧
      (step (run t) Event.clear).revoked.count id =
        (run t).revoked.count id) ∧
    (step (run t) Event.clear).notifLog = (run t).notifLog :=
  clearCompleted_spec (QInv_run t) hget

theorem clearCompleted_removes_exactly_completed_witness :
    mapGet (run [Event.add, Event.complete 0 (Except.ok [])]).uploads 0 =
      some { id := 0, file := 0, status := Status.completed,
             addresses := some [], error := none, timestamp := 0,
             thumbnail := some 0 } ∧
    ((({ id := 0, file := 0, status := Status.completed,
         addresses := some [], error := none, timestamp := 0,
         thumbnail := some 0 } : Upload).status = Status.completed →
      mapGet (step (run [Event.add, Event.complete 0 (Except.ok [])])
        Event.clear).uploads 0 = none ∧
      0 ∉ (step (run [Event.add, Event.complete 0 (Except.ok [])])
        Event.clear).callbacks ∧
      0 ∉ (step (run [Event.add, Event.complete 0 (Except.ok [])])
        Event.clear).processing ∧
      (step (run [Event.add, Event.complete 0 (Except.ok [])])
        Event.clear).revoked.count 0 =
        (run [Event.add, Event.complete 0 (Except.ok [])]).revoked.count 0
          + 1) ∧
    (({ id := 0, file := 0, status := Status.completed,
        addresses := some [], error := none, timestamp := 0,
        thumbnail := some 0 } : Upload).status ≠ Status.completed →
      mapGet (step (run [Event.add, Event.complete 0 (Except.ok [])])
        Event.clear).uploads 0 =
        some { id := 0, file := 0, status := Status.completed,
               addresses := some [], error := none, timestamp := 0,
               thumbnail := some 0 } ∧
      (0 ∈ (step (run [Event.add, Event.complete 0 (Except.ok [])])
        Event.clear).processing ↔
        0 ∈ (run [Event.add, Event.complete 0 (Except.ok [])]).processing) ∧
      (0 ∈ (step (run [Event.add, Event.complete 0 (Except.ok [])])
        Event.clear).callbacks ↔
        0 ∈ (run [Event.add, Event.complete 0 (Except.ok [])]).callbacks) ∧
      (step (run [Event.add, Event.complete 0 (Except.ok [])])
        Event.clear).revoked.count 0 =
        (run [Event.add, Event.complete 0 (Except.ok [])]).revoked.count 0) ∧
    (step (run [Event.add, Event.complete 0 (Except.ok [])])
      Event.clear).notifLog =
      (run [Event.add, Event.complete 0 (Except.ok [])]).notifLog) :=
  ⟨by decide,
   clearCompleted_removes_exactly_completed
     [Event.add, Event.complete 0 (Except.ok [])] 0
     { id := 0, file := 0, status := Status.completed, addresses := some [],
       error := none, timestamp := 0, thumbnail := some 0 } (by decide)⟩

end UploadQueue
